import Mathlib

/-!
Verification of the bittorrent client against its specification.

The Rust sources are shallowly embedded: bytes are `Nat` (values < 256 in
all inputs of interest), byte buffers are `List Nat`, Rust `String`s are the
lists of their UTF-8 bytes, `i64` is `Int` together with explicit range
checks, `usize` is `Nat` with wrap-around applied exactly where the source
casts, and `HashMap<String, Value>` is an association list with unique keys
(`insertAssoc` models `HashMap::insert`, `lookupAssoc` models `get`).
Functions that can panic in Rust (`unwrap`, `expect`, `panic!` calls, slice
range errors, numeric parse failures) are embedded as `Option`-returning
functions where `none` is the panic.
-/

set_option maxRecDepth 100000

/-! ### Byte-level helpers -/

/-- ASCII digit test, as used by `char::is_ascii_digit` in `bencode.rs`. -/
def isDigit (c : Nat) : Bool := 48 ≤ c && c ≤ 57

/-- Characters collected by `Bencode::decode_integer_number`
(`bencode.rs:186-198`): ASCII digits and the minus sign. -/
def isNumChar (c : Nat) : Bool := isDigit c || c == 45

/-- The maximal prefix of digit/minus characters together with the rest of
the input; this is the collection loop of `decode_integer_number`. -/
def takeNum : List Nat → List Nat × List Nat
  | [] => ([], [])
  | c :: rest =>
    if isNumChar c then
      let p := takeNum rest
      (c :: p.1, p.2)
    else ([], c :: rest)

/-- Numeric value of a list of ASCII digit bytes, most significant first. -/
def digitsVal (ds : List Nat) : Nat := ds.foldl (fun a c => a * 10 + (c - 48)) 0

/-- Little-endian decimal digits of `n`, with explicit fuel so that the
kernel can evaluate it; `fuel ≥ n` suffices. -/
def natDigitsAux : Nat → Nat → List Nat
  | 0, _ => []
  | _ + 1, 0 => []
  | fuel + 1, n + 1 => (n + 1) % 10 :: natDigitsAux fuel ((n + 1) / 10)

/-- ASCII bytes of the usual decimal rendering of `n`
(Rust `usize::to_string`): no leading zeros, `0` for zero. -/
def natToBytes (n : Nat) : List Nat :=
  if n = 0 then [48] else (natDigitsAux n n).reverse.map (· + 48)

/-- ASCII bytes of Rust `i64::to_string`. -/
def intToBytes (n : Int) : List Nat :=
  if n < 0 then 45 :: natToBytes (-n).toNat else natToBytes n.toNat

/-- Rust `str::parse::<i64>` restricted to the character set that
`decode_integer_number` can collect (digits and `-`): an optional leading
minus, then one or more digits, rejecting any stray minus and any value
outside `[-2^63, 2^63 - 1]`. `none` is `Err`, which the source turns into a
panic via `.expect("Invalid number")`. -/
def parseI64 (s : List Nat) : Option Int :=
  if s.head? = some 45 then
    if s.tail.isEmpty || !s.tail.all isDigit then none
    else if digitsVal s.tail ≤ 2 ^ 63 then some (-(digitsVal s.tail : Int)) else none
  else
    if s.isEmpty || !s.all isDigit then none
    else if digitsVal s ≤ 2 ^ 63 - 1 then some (digitsVal s : Int) else none

/-- Continuation byte test for UTF-8. -/
def isCont (c : Nat) : Bool := 0x80 ≤ c && c ≤ 0xBF

/-- Validity of a byte sequence as UTF-8, exactly as Rust's
`std::str::from_utf8` checks it (RFC 3629: no overlong forms, no
surrogates, no code points above U+10FFFF). -/
def validUTF8 : List Nat → Bool
  | [] => true
  | c :: rest =>
    if c ≤ 0x7F then validUTF8 rest
    else if 0xC2 ≤ c && c ≤ 0xDF then
      match rest with
      | c1 :: rest1 => isCont c1 && validUTF8 rest1
      | [] => false
    else if c = 0xE0 then
      match rest with
      | c1 :: c2 :: rest2 => (0xA0 ≤ c1 && c1 ≤ 0xBF) && isCont c2 && validUTF8 rest2
      | _ => false
    else if (0xE1 ≤ c && c ≤ 0xEC) || c = 0xEE || c = 0xEF then
      match rest with
      | c1 :: c2 :: rest2 => isCont c1 && isCont c2 && validUTF8 rest2
      | _ => false
    else if c = 0xED then
      match rest with
      | c1 :: c2 :: rest2 => (0x80 ≤ c1 && c1 ≤ 0x9F) && isCont c2 && validUTF8 rest2
      | _ => false
    else if c = 0xF0 then
      match rest with
      | c1 :: c2 :: c3 :: rest3 =>
        (0x90 ≤ c1 && c1 ≤ 0xBF) && isCont c2 && isCont c3 && validUTF8 rest3
      | _ => false
    else if 0xF1 ≤ c && c ≤ 0xF3 then
      match rest with
      | c1 :: c2 :: c3 :: rest3 => isCont c1 && isCont c2 && isCont c3 && validUTF8 rest3
      | _ => false
    else if c = 0xF4 then
      match rest with
      | c1 :: c2 :: c3 :: rest3 =>
        (0x80 ≤ c1 && c1 ≤ 0x8F) && isCont c2 && isCont c3 && validUTF8 rest3
      | _ => false
    else false

/-- Strict byte-wise lexicographic order on byte strings; this is the order
of Rust `String` (`Ord` compares the UTF-8 bytes), used by `sort` in
`Bencode::encode` and in `Display` for dictionaries. -/
def lexLt : List Nat → List Nat → Bool
  | [], [] => false
  | [], _ :: _ => true
  | _ :: _, [] => false
  | a :: as, b :: bs => if a < b then true else if b < a then false else lexLt as bs

/-- Fuel-driven worker for `chunksExact`; `fuel ≥ l.length` suffices. -/
def chunksExactAux (k : Nat) : Nat → List Nat → List (List Nat)
  | 0, _ => []
  | fuel + 1, l =>
    if k = 0 ∨ l.length < k then [] else l.take k :: chunksExactAux k fuel (l.drop k)

/-- Rust `slice::chunks_exact(k)`: the list of complete `k`-byte chunks, the
remainder (if any) being dropped. -/
def chunksExact (k : Nat) (l : List Nat) : List (List Nat) := chunksExactAux k l.length l

/-- Big-endian bytes (most significant first) of the low `k` bytes of `n`. -/
def beBytes (k n : Nat) : List Nat := (List.range k).map fun i => n >>> (8 * (k - 1 - i)) % 256

/-- Lowercase hex rendering of a byte list, as `hex::encode` produces. -/
def toHex (bytes : List Nat) : List Nat :=
  bytes.flatMap fun b => [(fun d => if d < 10 then 48 + d else 87 + d) (b / 16),
                          (fun d => if d < 10 then 48 + d else 87 + d) (b % 16)]

/-! ### SHA-1 (the `sha1` crate used by `torrent.rs`) -/

/-- Left rotation of a 32-bit word. -/
def rotl32 (k w : Nat) : Nat := ((w <<< k) ||| (w >>> (32 - k))) % 4294967296

/-- SHA-1 round function. -/
def sha1F (t b c d : Nat) : Nat :=
  if t < 20 then (b &&& c) ||| ((b ^^^ 4294967295) &&& d)
  else if t < 40 then b ^^^ c ^^^ d
  else if t < 60 then (b &&& c) ||| (b &&& d) ||| (c &&& d)
  else b ^^^ c ^^^ d

/-- SHA-1 round constants. -/
def sha1K (t : Nat) : Nat :=
  if t < 20 then 0x5A827999
  else if t < 40 then 0x6ED9EBA1
  else if t < 60 then 0x8F1BBCDC
  else 0xCA62C1D6

/-- SHA-1 padding: `0x80`, zeros to 56 mod 64, then the bit length as eight
big-endian bytes. -/
def sha1Pad (msg : List Nat) : List Nat :=
  msg ++ 0x80 :: List.replicate ((119 - msg.length % 64) % 64) 0 ++ beBytes 8 (8 * msg.length)

/-- Expand the sixteen 32-bit words of a chunk to the eighty schedule words. -/
def sha1Expand (w : List Nat) : List Nat :=
  (List.range 64).foldl
    (fun ws j =>
      ws ++ [rotl32 1 (ws.getD (j + 13) 0 ^^^ ws.getD (j + 8) 0 ^^^ ws.getD (j + 2) 0 ^^^ ws.getD j 0)])
    w

/-- Process one 64-byte chunk. -/
def sha1Chunk (h : Nat × Nat × Nat × Nat × Nat) (chunk : List Nat) : Nat × Nat × Nat × Nat × Nat :=
  let w := sha1Expand ((chunksExact 4 chunk).map fun c =>
    c.getD 0 0 * 16777216 + c.getD 1 0 * 65536 + c.getD 2 0 * 256 + c.getD 3 0)
  let s := (List.range 80).foldl
    (fun s t =>
      let (a, b, c, d, e) := s
      ((rotl32 5 a + sha1F t b c d + e + sha1K t + w.getD t 0) % 4294967296,
        a, rotl32 30 b, c, d))
    (h.1, h.2.1, h.2.2.1, h.2.2.2.1, h.2.2.2.2)
  ((h.1 + s.1) % 4294967296, (h.2.1 + s.2.1) % 4294967296, (h.2.2.1 + s.2.2.1) % 4294967296,
    (h.2.2.2.1 + s.2.2.2.1) % 4294967296, (h.2.2.2.2 + s.2.2.2.2) % 4294967296)

/-- SHA-1 digest (20 bytes) of a byte list. -/
def sha1 (msg : List Nat) : List Nat :=
  let h := (chunksExact 64 (sha1Pad msg)).foldl sha1Chunk
    (0x67452301, 0xEFCDAB89, 0x98BADCFE, 0x10325476, 0xC3D2E1F0)
  beBytes 4 h.1 ++ beBytes 4 h.2.1 ++ beBytes 4 h.2.2.1 ++ beBytes 4 h.2.2.2.1 ++ beBytes 4 h.2.2.2.2

/-! ### The bencode codec (`bencode.rs`) -/

namespace Bencode

/-- The `Value` enum of `bencode.rs:3-10`. `String(String)` carries the
UTF-8 bytes of the Rust string, `Blob(Vec<u8>)` the raw bytes, and
`Dictionary(HashMap<String, Value>)` is modelled as an association list
with unique keys (insertion order; lookups never depend on the order and
`encode` sorts, mirroring the unordered `HashMap`). -/
inductive Value where
  | str (s : List Nat)
  | blob (b : List Nat)
  | num (n : Int)
  | list (l : List Value)
  | dict (m : List (List Nat × Value))

/-- Models `HashMap::insert` on the association list: replace the value of
an existing key in place, otherwise append. -/
def insertAssoc (k : List Nat) (v : Value) : List (List Nat × Value) → List (List Nat × Value)
  | [] => [(k, v)]
  | (k', v') :: rest => if k' = k then (k, v) :: rest else (k', v') :: insertAssoc k v rest

/-- Models `HashMap::get`. -/
def lookupAssoc (k : List Nat) : List (List Nat × Value) → Option Value
  | [] => none
  | (k', v) :: rest => if k' = k then some v else lookupAssoc k rest

/-- The `match ... Value::Dictionary(m) => m, _ => panic!` idiom of
`torrent.rs`: project the dictionary variant, `none` being the panic. -/
def Value.asDict : Value → Option (List (List Nat × Value))
  | .dict m => some m
  | _ => none

/-- Project the `String` variant (`Some(Value::String(s))` patterns). -/
def Value.asStr : Value → Option (List Nat)
  | .str s => some s
  | _ => none

/-- Project the `Blob` variant (`Some(Value::Blob(b))` patterns). -/
def Value.asBlob : Value → Option (List Nat)
  | .blob b => some b
  | _ => none

/-- Project the `Number` variant (`Some(Value::Number(n))` patterns). -/
def Value.asNum : Value → Option Int
  | .num n => some n
  | _ => none

/-- The bencoding of a byte string: decimal length, `:`, raw bytes. This is
what `Bencode::encode` emits for `Value::String` and `Value::Blob`
(`bencode.rs:85-96`). -/
def encStr (k : List Nat) : List Nat := natToBytes k.length ++ 58 :: k

/-- Entry-list insertion keeping ascending `lexLt` key order. -/
def insertSorted (e : List Nat × Value) :
    List (List Nat × Value) → List (List Nat × Value)
  | [] => [e]
  | e' :: rest => if lexLt e.1 e'.1 then e :: e' :: rest else e' :: insertSorted e rest

/-- Insertion sort of dictionary entries by key. For the unique keys of a
`HashMap` this produces the same sequence as the `sorted_keys.sort()` of
`Bencode::encode` (`bencode.rs:113-114`): the strictly ascending
rearrangement. -/
def sortEntries : List (List Nat × Value) → List (List Nat × Value)
  | [] => []
  | e :: rest => insertSorted e (sortEntries rest)

mutual
/-- Recursively sort every dictionary of a value by key. `Bencode::encode`
sorts each dictionary as it reaches it; composing this normalisation with
the order-preserving `encodeT` below yields exactly those bytes. -/
def sortAll : Value → Value
  | .str s => .str s
  | .blob b => .blob b
  | .num n => .num n
  | .list vs => .list (sortAllL vs)
  | .dict m => .dict (sortEntries (sortAllD m))
def sortAllL : List Value → List Value
  | [] => []
  | v :: vs => sortAll v :: sortAllL vs
def sortAllD : List (List Nat × Value) → List (List Nat × Value)
  | [] => []
  | (k, v) :: m => (k, sortAll v) :: sortAllD m
end

mutual
/-- `Bencode::encode` (`bencode.rs:83-126`) on values whose dictionaries
are already key-sorted; the sorting step of the source is applied by
`sortAll` in the wrapper `encode` below. Strings and blobs both encode as
`<len>:<bytes>`, numbers as `i<decimal>e`, lists as `l...e`, dictionaries
as `d<key string><value>...e`. -/
def encodeT : Value → List Nat
  | .str s => encStr s
  | .blob b => encStr b
  | .num n => 105 :: intToBytes n ++ [101]
  | .list vs => 108 :: encodeTL vs ++ [101]
  | .dict m => 100 :: encodeTD m ++ [101]
def encodeTL : List Value → List Nat
  | [] => []
  | v :: vs => encodeT v ++ encodeTL vs
def encodeTD : List (List Nat × Value) → List Nat
  | [] => []
  | (k, v) :: m => encStr k ++ encodeT v ++ encodeTD m
end

/-- `Bencode::encode` (`bencode.rs:83-126`): every dictionary is emitted in
ascending key order regardless of the `HashMap`'s internal order. -/
def encode (v : Value) : List Nat := encodeT (sortAll v)

/-- `Bencode::decode_integer_number` (`bencode.rs:186-198`): collect the
digit/minus prefix and parse it as `i64`; `none` is the
`expect("Invalid number")` panic. Returns the value and the rest of the
input. -/
def decodeIntegerNumber (l : List Nat) : Option (Int × List Nat) :=
  let p := takeNum l
  (parseI64 p.1).map fun n => (n, p.2)

/-- Models the `Display`-then-strip-quotes key extraction of
`decode_dictionary` (`bencode.rs:169-176`): a `Value::String` displays as
`"<content>"`, so stripping one leading and one trailing quote returns
exactly the content bytes; a `Value::Blob` displays as `[..]` with no
quotes, so `strip_prefix('"').unwrap()` panics (`none`). `decode_string`
only ever produces these two variants. -/
def keyOf : Value → Option (List Nat)
  | .str s => some s
  | _ => none

/-- `Bencode::decode_string` (`bencode.rs:128-140`): decimal length, `:`,
then that many raw bytes, surfaced as `String` when they are valid UTF-8
and as `Blob` otherwise. `none` covers the `expect` on the missing colon,
a negative length (whose `as usize` cast makes the slice range panic) and
a length that runs past the end of the input. -/
def decodeString (l : List Nat) : Option (Value × List Nat) :=
  (decodeIntegerNumber l).bind fun p =>
    if p.2.head? = some 58 then
      if 0 ≤ p.1 ∧ p.1.toNat ≤ p.2.tail.length then
        some (if validUTF8 (p.2.tail.take p.1.toNat) then .str (p.2.tail.take p.1.toNat)
              else .blob (p.2.tail.take p.1.toNat), p.2.tail.drop p.1.toNat)
      else none
    else none

/-- `Bencode::decode_integer` (`bencode.rs:142-148`): `i`, number, `e`. -/
def decodeInteger (l : List Nat) : Option (Value × List Nat) :=
  if l.head? = some 105 then
    (decodeIntegerNumber l.tail).bind fun p =>
      if p.2.head? = some 101 then some (.num p.1, p.2.tail) else none
  else none

mutual
/-- `Bencode::decode` (`bencode.rs:70-79`), with fuel making the mutual
recursion structural; every recursive call consumes fuel and the wrapper
`decode` below supplies more fuel than any input can use, so the fuel-out
branch is unreachable on the runs the source performs. `none` is a panic
(`Unexpected character` / `Unexpected end of input` or one inherited from
the helpers). -/
def decodeV : Nat → List Nat → Option (Value × List Nat)
  | 0, _ => none
  | _ + 1, [] => none
  | fuel + 1, c :: rest =>
    if c = 100 then decodeDictLoop fuel rest []
    else if c = 108 then decodeListLoop fuel rest []
    else if c = 105 then decodeInteger (c :: rest)
    else if isDigit c then decodeString (c :: rest)
    else none
/-- The `while self.peek() != Some('e')` loop of `decode_list`
(`bencode.rs:150-161`) followed by consuming the closing `e`; `acc` is the
`values` vector. -/
def decodeListLoop : Nat → List Nat → List Value → Option (Value × List Nat)
  | 0, _, _ => none
  | fuel + 1, l, acc =>
    if l.head? = some 101 then some (.list acc, l.tail)
    else (decodeV fuel l).bind fun p => decodeListLoop fuel p.2 (acc ++ [p.1])
/-- The loop of `decode_dictionary` (`bencode.rs:163-184`): key via
`decode_string` and quote stripping, value via `decode`, accumulated with
`HashMap::insert` (so a repeated key overwrites the earlier value). -/
def decodeDictLoop : Nat → List Nat → List (List Nat × Value) → Option (Value × List Nat)
  | 0, _, _ => none
  | fuel + 1, l, acc =>
    if l.head? = some 101 then some (.dict acc, l.tail)
    else (decodeString l).bind fun p =>
      (keyOf p.1).bind fun k =>
        (decodeV fuel p.2).bind fun q => decodeDictLoop fuel q.2 (insertAssoc k q.1 acc)
end

/-- `Bencode::new(bytes).decode()`: run the fuelled decoder with ample
fuel. Between two fuel decrements the decoder always consumes at least one
input byte, so `2 * length + 4` exceeds what any run can use and the model
agrees with the un-fuelled source on every input. The returned list is the
unconsumed suffix (the source's final `position`). -/
def decode (l : List Nat) : Option (Value × List Nat) := decodeV (2 * l.length + 4) l

/-- Decode, then re-encode the decoded value: the composition claim C1
speaks about. `none` when decoding panics. -/
def encodeDecode (l : List Nat) : Option (List Nat) := (decode l).map fun p => encode p.1

end Bencode

namespace Bencode

/-- Strictly ascending (`lexLt`) chains of keys: the key order canonical
bencoding requires of dictionaries (which also forces the keys to be
unique). -/
def sortedKeys : List (List Nat) → Bool
  | [] => true
  | [_] => true
  | a :: b :: rest => lexLt a b && sortedKeys (b :: rest)

mutual
/-- Values in the image of a canonical decode: strings carry valid UTF-8
(that is how `decode_string` classifies them) and blobs carry invalid
UTF-8, numbers fit in `i64`, string lengths have parseable decimal
renderings, and dictionaries are sorted association lists with UTF-8 keys
(Rust `String` keys are always valid UTF-8). -/
def canonical : Value → Bool
  | .str s => validUTF8 s && decide (s.length < 2 ^ 63)
  | .blob b => !validUTF8 b && decide (b.length < 2 ^ 63)
  | .num n => decide (-(2 ^ 63) ≤ n) && decide (n < 2 ^ 63)
  | .list vs => canonicalL vs
  | .dict m => canonicalD m && sortedKeys (m.map Prod.fst)
def canonicalL : List Value → Bool
  | [] => true
  | v :: vs => canonical v && canonicalL vs
def canonicalD : List (List Nat × Value) → Bool
  | [] => true
  | (k, v) :: m => validUTF8 k && decide (k.length < 2 ^ 63) && canonical v && canonicalD m
end

mutual
/-- Every `Blob` inside the value holds bytes that are not valid UTF-8.
`decode_string` (`bencode.rs:135-139`) only ever builds a `Blob` from
bytes that failed the UTF-8 check, so every decoded value satisfies this
predicate (proved below); claim C10 rests on it. -/
def blobsOk : Value → Bool
  | .str _ => true
  | .blob b => !validUTF8 b
  | .num _ => true
  | .list vs => blobsOkL vs
  | .dict m => blobsOkD m
def blobsOkL : List Value → Bool
  | [] => true
  | v :: vs => blobsOk v && blobsOkL vs
def blobsOkD : List (List Nat × Value) → Bool
  | [] => true
  | (_, v) :: m => blobsOk v && blobsOkD m
end

/-- Canonical bencoded byte strings: the quantification domain of claim C1,
written out from the claim's own parenthetical and the spec grammar
(`spec.md` §4.1). Integers are `i<digits>e` with no leading zeros and no
`-0`; byte strings are `<canonical decimal length>:<raw bytes>`; lists
concatenate canonical encodings; dictionary keys are unique and strictly
ascending in raw byte order. This predicate is specification-side (the
source defines no such notion): in particular the raw bytes of a string,
key bytes included, are arbitrary and need not be valid UTF-8. -/
inductive CB : List Nat → Prop where
  | numZero : CB [105, 48, 101]
  | numPos (ds : List Nat) (h0 : ds ≠ []) (h1 : ∀ d ∈ ds, isDigit d = true)
      (h2 : ds.head? ≠ some 48) : CB (105 :: ds ++ [101])
  | numNeg (ds : List Nat) (h0 : ds ≠ []) (h1 : ∀ d ∈ ds, isDigit d = true)
      (h2 : ds.head? ≠ some 48) : CB (105 :: 45 :: ds ++ [101])
  | str (b : List Nat) (h : ∀ x ∈ b, x < 256) : CB (encStr b)
  | list (bs : List (List Nat)) (h : ∀ x ∈ bs, CB x) : CB (108 :: bs.flatten ++ [101])
  | dict (es : List (List Nat × List Nat)) (hks : sortedKeys (es.map Prod.fst) = true)
      (hkb : ∀ e ∈ es, ∀ x ∈ e.1, x < 256) (hv : ∀ e ∈ es, CB e.2) :
      CB (100 :: (es.map fun e => encStr e.1 ++ e.2).flatten ++ [101])

end Bencode

/-! ### The metainfo model (`torrent.rs`) -/

/-- Rust `i64 as usize` (wrapping 64-bit cast). -/
def i64ToUsize (n : Int) : Nat := (n % 2 ^ 64).toNat

/-- Rust `usize as i64` (wrapping 64-bit cast). -/
def usizeToI64 (n : Nat) : Int :=
  if n % 2 ^ 64 < 2 ^ 63 then (n % 2 ^ 64 : Int) else (n % 2 ^ 64 : Int) - 2 ^ 64

/-- The UTF-8 bytes of the string literal used as a dictionary key. -/
def kAnnounce : List Nat := [97, 110, 110, 111, 117, 110, 99, 101]

/-- Key bytes of `"info"`. -/
def kInfo : List Nat := [105, 110, 102, 111]

/-- Key bytes of `"length"`. -/
def kLength : List Nat := [108, 101, 110, 103, 116, 104]

/-- Key bytes of `"name"`. -/
def kName : List Nat := [110, 97, 109, 101]

/-- Key bytes of `"piece length"`. -/
def kPieceLength : List Nat := [112, 105, 101, 99, 101, 32, 108, 101, 110, 103, 116, 104]

/-- Key bytes of `"pieces"`. -/
def kPieces : List Nat := [112, 105, 101, 99, 101, 115]

/-- Key bytes of `"peers"`. -/
def kPeers : List Nat := [112, 101, 101, 114, 115]

/-- The `Info` struct of `torrent.rs:120-126`: `length` and `piece_length`
are `usize`, `name` a Rust string (its UTF-8 bytes), `pieces` the
`Vec<[u8; 20]>` of 20-byte chunks. -/
structure Info where
  length : Nat
  name : List Nat
  pieceLength : Nat
  pieces : List (List Nat)
deriving DecidableEq

/-- The `Torrent` struct of `torrent.rs:7-11`. -/
structure Torrent where
  announce : List Nat
  info : Info
deriving DecidableEq

/-- `impl From<&HashMap<String, Value>> for Info` (`torrent.rs:128-166`):
project `length`, `name`, `piece length` and `pieces`, panicking (`none`)
on a missing key or a mismatched variant; `pieces` is accepted only as a
`Blob` and split by `chunks_exact(20)` (a remainder is silently dropped). -/
def Info.fromMap (m : List (List Nat × Bencode.Value)) : Option Info :=
  (Bencode.lookupAssoc kLength m).bind fun lv => lv.asNum.bind fun len =>
    (Bencode.lookupAssoc kName m).bind fun nv => nv.asStr.bind fun name =>
      (Bencode.lookupAssoc kPieceLength m).bind fun plv => plv.asNum.bind fun pl =>
        (Bencode.lookupAssoc kPieces m).bind fun pv => pv.asBlob.map fun pieces =>
          ⟨i64ToUsize len, name, i64ToUsize pl, chunksExact 20 pieces⟩

/-- `impl From<&Info> for HashMap<String, Value>` (`torrent.rs:168-187`):
rebuild the four-key dictionary from the projected fields, flattening the
piece hashes back into one blob. The association list records the
insertion order of the source; `Bencode.encode` sorts keys, as the
`HashMap` iteration order is immaterial. -/
def Info.toMap (i : Info) : List (List Nat × Bencode.Value) :=
  [(kLength, .num (usizeToI64 i.length)),
   (kName, .str i.name),
   (kPieceLength, .num (usizeToI64 i.pieceLength)),
   (kPieces, .blob i.pieces.flatten)]

/-- `Torrent::open` (`torrent.rs:14-39`) after the file bytes have been
read: decode, require a dictionary with an `announce` string and an `info`
dictionary, and project the `Info`. `none` is any of the panics. -/
def Torrent.openFile (buf : List Nat) : Option Torrent :=
  (Bencode.decode buf).bind fun p => p.1.asDict.bind fun m =>
    (Bencode.lookupAssoc kAnnounce m).bind fun av => av.asStr.bind fun announce =>
      (Bencode.lookupAssoc kInfo m).bind fun iv => iv.asDict.bind fun im =>
        (Info.fromMap im).map fun i => ⟨announce, i⟩

/-- The SHA-1 input and digest of `Torrent::info_hash` (`torrent.rs:41-48`):
the hash of the re-encoding of the dictionary rebuilt from the projected
`Info` fields. -/
def Torrent.infoHashBytes (t : Torrent) : List Nat :=
  sha1 (Bencode.encode (.dict t.info.toMap))

/-- `Torrent::info_hash` (`torrent.rs:41-48`), a lowercase hex string
(returned as its ASCII bytes). -/
def Torrent.infoHash (t : Torrent) : List Nat := toHex t.infoHashBytes

/-- The address part of the peer extraction in `Torrent::get_peers`
(`torrent.rs:83-94`): each complete 6-byte chunk yields the `Ipv4Addr`
built from its first four bytes; this is all the function returns. -/
def getPeersIps (blob : List Nat) : List (Nat × Nat × Nat × Nat) :=
  (chunksExact 6 blob).map fun c => (c.getD 0 0, c.getD 1 0, c.getD 2 0, c.getD 3 0)

/-- The `(ip, port)` pairs that `Torrent::get_peers` prints
(`torrent.rs:88-90`), port decoded big-endian from bytes 4 and 5 of each
chunk. This is also the endpoint list that claim C6 describes (address and
port together). -/
def peerEndpoints (blob : List Nat) : List ((Nat × Nat × Nat × Nat) × Nat) :=
  (chunksExact 6 blob).map fun c =>
    ((c.getD 0 0, c.getD 1 0, c.getD 2 0, c.getD 3 0), c.getD 4 0 * 256 + c.getD 5 0)

/-- The response-processing tail of `Torrent::get_peers`
(`torrent.rs:72-94`), taking the tracker's response body as input (the
HTTP transport is outside the model): decode, require a dictionary whose
`peers` entry is a `Blob`, and map the 6-byte chunks to addresses. -/
def Torrent.getPeers (resp : List Nat) : Option (List (Nat × Nat × Nat × Nat)) :=
  (Bencode.decode resp).bind fun p => p.1.asDict.bind fun m =>
    (Bencode.lookupAssoc kPeers m).bind fun pv => pv.asBlob.map getPeersIps

/-! ### The peer session model (`tracker.rs`) -/

/-- The `Handshake` struct of `tracker.rs:248-253`, with `pstr` as its
UTF-8 bytes and the fixed-size arrays as lists (of lengths 8, 20, 20). -/
structure Handshake where
  pstr : List Nat
  reserved : List Nat
  infoHash : List Nat
  peerId : List Nat
deriving DecidableEq

/-- `Handshake::from_bytes` (`tracker.rs:277-297`) on a 68-byte frame:
`pstr_len` is byte 0, then `pstr`, 8 reserved bytes, 20 info-hash bytes
and 20 peer-id bytes. `none` models the panics: a slice reaching past the
end of the array (`pstr_len > 19`) or `pstr` bytes that are not UTF-8. -/
def Handshake.fromBytes (bytes : List Nat) : Option Handshake :=
  if bytes.length = 68 then
    if bytes.headD 0 + 49 ≤ 68 then
      if validUTF8 ((bytes.drop 1).take (bytes.headD 0)) then
        some ⟨(bytes.drop 1).take (bytes.headD 0),
              (bytes.drop (bytes.headD 0 + 1)).take 8,
              (bytes.drop (bytes.headD 0 + 9)).take 20,
              (bytes.drop (bytes.headD 0 + 29)).take 20⟩
      else none
    else none
  else none

/-- The receive half of `Tracker::handshake` (`tracker.rs:43-53`): after
writing its own frame the session reads exactly 68 bytes and parses them
with `Handshake::from_bytes`, returning the whole remote handshake. The
local torrent's info-hash (first argument) is what the session sent; the
source never compares it against the remote frame. -/
def Tracker.handshake (localInfoHash : List Nat) (reply : List Nat) : Option Handshake :=
  Handshake.fromBytes reply

/-- The `MessageId` enum of `tracker.rs:202-213` (`Have` is `haveMsg`
here, `have` being reserved in Lean). -/
inductive MessageId where
  | choke
  | unchoke
  | interested
  | notInterested
  | haveMsg
  | bitfield
  | request
  | piece
  | cancel
deriving DecidableEq

/-- `impl From<u8> for MessageId` (`tracker.rs:215-230`); `none` is the
`panic!("Invalid message id")`. -/
def MessageId.fromByte (b : Nat) : Option MessageId :=
  if b = 0 then some .choke
  else if b = 1 then some .unchoke
  else if b = 2 then some .interested
  else if b = 3 then some .notInterested
  else if b = 4 then some .haveMsg
  else if b = 5 then some .bitfield
  else if b = 6 then some .request
  else if b = 7 then some .piece
  else if b = 8 then some .cancel
  else none

/-- `u32::from_be_bytes`. -/
def beU32 (a b c d : Nat) : Nat := a * 16777216 + b * 65536 + c * 256 + d

/-- `Message::read_from_socket` (`tracker.rs:185-199`) on a byte stream
(the socket's incoming bytes): read a 4-byte big-endian length, read that
many bytes, then `split_first` into the id byte and the payload. `none`
models a failed `read_exact` (too few bytes), the `split_first().unwrap()`
panic on an empty buffer (a zero-length frame), and the unknown-id panic.
On success it returns `(id, payload)` and the unread rest of the stream. -/
def Message.readFromSocket (stream : List Nat) : Option ((MessageId × List Nat) × List Nat) :=
  match stream with
  | b0 :: b1 :: b2 :: b3 :: rest =>
    if beU32 b0 b1 b2 b3 ≤ rest.length then
      match rest.take (beU32 b0 b1 b2 b3) with
      | [] => none
      | tag :: payload =>
        (MessageId.fromByte tag).map fun id => ((id, payload), rest.drop (beU32 b0 b1 b2 b3))
    else none
  | _ => none

/-- `piece_length` as computed in the `Download` arm of
`Tracker::download_piece` (`tracker.rs:98-101`):
`min(info.length - piece_index * info.piece_length, info.piece_length)`.
The subtraction is `usize` and the callers guarantee
`piece_index * piece_length < length`. -/
def pieceSize (length pieceLength pieceIndex : Nat) : Nat :=
  min (length - pieceIndex * pieceLength) pieceLength

/-- `blocks_to_download` (`tracker.rs:102`): the source computes
`(piece_length as f64 / 16384.0).ceil() as usize`; for every
`piece_length < 2^53` the `f64` division and ceiling are exact, so the
embedding uses the exact natural-number ceiling. -/
def blocksToDownload (pieceLength : Nat) : Nat := (pieceLength + 16383) / 16384

/-- `block_index_start` (`tracker.rs:110`): `block_index as u32 * 16384`,
with the 32-bit wrap-around of the cast and of the multiplication made
explicit. -/
def blockBegin (blockIndex : Nat) : Nat :=
  blockIndex % 4294967296 * 16384 % 4294967296

/-- `block_length` (`tracker.rs:111-112`):
`u32::min(piece_length as u32 - (block_index * 16384) as u32, 16384)`.
Both casts truncate to 32 bits; the `u32` subtraction is embedded with
wrap-around semantics (every fact proved below only evaluates it where
either no borrow occurs — so debug and release profiles agree — or both
operands truncate to values where the source, in either profile, yields
the same result). -/
def blockLength (pieceLength blockIndex : Nat) : Nat :=
  min ((pieceLength % 4294967296 + 4294967296 - blockIndex * 16384 % 4294967296) % 4294967296)
    16384

/-- The block loop of the `Download` arm (`tracker.rs:105-129`), driven by
the sequence of messages the peer answers with: for each of the
`blocksToDownload` iterations the session sends a request and reads one
message, asserts its id is `Piece` (`none` on the failed assertion or on a
socket without a further message) and appends `payload[8..]` to the output
file. The returned bytes are exactly what gets written; no hash is
computed (`tracker.rs:131` is the `TODO: Verify piece hash`). -/
def downloadLoop : Nat → List (MessageId × List Nat) → Option (List Nat × List (MessageId × List Nat))
  | 0, msgs => some ([], msgs)
  | _ + 1, [] => none
  | k + 1, (id, payload) :: rest =>
    if id = .piece then (downloadLoop k rest).map fun w => (payload.drop 8 ++ w.1, w.2)
    else none

/-- The bytes `Tracker::download_piece` (`tracker.rs:97-133`) writes for
piece `pieceIndex` of a torrent with total length `length` and piece
length `pieceLength`, given the peer's messages in order; the second
component is the part of the message stream left unread. -/
def downloadPieceWrites (length pieceLength pieceIndex : Nat)
    (responses : List (MessageId × List Nat)) : Option (List Nat × List (MessageId × List Nat)) :=
  downloadLoop (blocksToDownload (pieceSize length pieceLength pieceIndex)) responses

/-! ### Decimal rendering and parsing lemmas -/

theorem natDigitsAux_eq_digits :
    ∀ n fuel : Nat, n ≤ fuel → natDigitsAux fuel n = Nat.digits 10 n := by
  intro n
  induction n using Nat.strong_induction_on with
  | _ n ih =>
    intro fuel hf
    rcases fuel with _ | fuel
    · have : n = 0 := by omega
      subst this
      simp [natDigitsAux]
    · rcases n with _ | n
      · simp [natDigitsAux]
      · have hlt : (n + 1) / 10 < n + 1 := Nat.div_lt_self (by omega) (by omega)
        rw [natDigitsAux, ih _ hlt fuel (by omega)]
        exact (Nat.digits_def' (b := 10) (by norm_num) (by omega)).symm

theorem natToBytes_eq (n : Nat) :
    natToBytes n = if n = 0 then [48] else (Nat.digits 10 n).reverse.map (· + 48) := by
  rw [natToBytes, natDigitsAux_eq_digits n n le_rfl]

theorem natToBytes_ne_nil (n : Nat) : natToBytes n ≠ [] := by
  rw [natToBytes_eq]
  split
  · simp
  · simp only [ne_eq, List.map_eq_nil_iff, List.reverse_eq_nil_iff]
    intro h
    exact absurd (Nat.digits_eq_nil_iff_eq_zero.mp h) (by assumption)

theorem natToBytes_all_digits (n : Nat) : ∀ d ∈ natToBytes n, isDigit d = true := by
  rw [natToBytes_eq]
  split
  · intro d hd
    simp at hd
    simp [hd, isDigit]
  · intro d hd
    simp only [List.mem_map, List.mem_reverse] at hd
    obtain ⟨x, hx, rfl⟩ := hd
    have := Nat.digits_lt_base (by norm_num) hx
    simp [isDigit]
    omega

theorem digitsVal_go (L : List Nat) :
    ∀ a : Nat, List.foldl (fun a c => a * 10 + (c - 48)) a (L.reverse.map (· + 48)) =
      a * 10 ^ L.length + Nat.ofDigits 10 L := by
  induction L with
  | nil => simp
  | cons d L ih =>
    intro a
    simp only [List.reverse_cons, List.map_append, List.foldl_append, ih, List.map_cons,
      List.map_nil, List.foldl_cons, List.foldl_nil, Nat.ofDigits_cons, List.length_cons]
    ring_nf
    omega

theorem digitsVal_natToBytes (n : Nat) : digitsVal (natToBytes n) = n := by
  rw [natToBytes_eq]
  split
  · simp [digitsVal]
    omega
  · rw [digitsVal, digitsVal_go, Nat.ofDigits_digits]
    simp

theorem digitsVal_lt (ds : List Nat) : ∀ a, (∀ d ∈ ds, isDigit d = true) →
    List.foldl (fun a c => a * 10 + (c - 48)) a ds < (a + 1) * 10 ^ ds.length := by
  induction ds with
  | nil => intro a _; simpa using Nat.lt_succ_self a
  | cons d ds ih =>
    intro a h
    simp only [List.foldl_cons, List.length_cons]
    have hd : isDigit d = true := h d (by simp)
    have hds : ∀ x ∈ ds, isDigit x = true := fun x hx => h x (by simp [hx])
    have := ih (a * 10 + (d - 48)) hds
    have hd' : d - 48 < 10 := by simp [isDigit] at hd; omega
    calc List.foldl (fun a c => a * 10 + (c - 48)) (a * 10 + (d - 48)) ds
        < (a * 10 + (d - 48) + 1) * 10 ^ ds.length := this
      _ ≤ (a + 1) * 10 ^ (ds.length + 1) := by
          have : a * 10 + (d - 48) + 1 ≤ (a + 1) * 10 := by omega
          calc (a * 10 + (d - 48) + 1) * 10 ^ ds.length ≤ (a + 1) * 10 * 10 ^ ds.length :=
                Nat.mul_le_mul_right _ this
            _ = (a + 1) * 10 ^ (ds.length + 1) := by ring

/-! ### Number-collection and string-parsing lemmas -/

theorem takeNum_append (a b : List Nat) (ha : ∀ c ∈ a, isNumChar c = true)
    (hb : ∀ c, b.head? = some c → isNumChar c = false) : takeNum (a ++ b) = (a, b) := by
  induction a with
  | nil =>
    cases b with
    | nil => rfl
    | cons c b' =>
      have := hb c rfl
      simp [takeNum, this]
  | cons c a' ih =>
    have hc : isNumChar c = true := ha c (by simp)
    have ih' := ih fun x hx => ha x (by simp [hx])
    simp only [List.cons_append, takeNum, hc, if_true, List.append_eq, ih']

theorem isNumChar_of_digit (c : Nat) (h : isDigit c = true) : isNumChar c = true := by
  simp [isNumChar, h]

theorem not_numChar_58 : isNumChar 58 = false := by decide

theorem not_numChar_101 : isNumChar 101 = false := by decide

theorem parseI64_natToBytes (n : Nat) (h : n ≤ 2 ^ 63 - 1) :
    parseI64 (natToBytes n) = some (n : Int) := by
  have hne : ¬((natToBytes n).head? = some 45) := by
    cases hnb : natToBytes n with
    | nil => simp
    | cons c cs =>
      have hdigit : isDigit c = true := natToBytes_all_digits n c (by rw [hnb]; simp)
      simp only [List.head?_cons, Option.some.injEq]
      simp only [isDigit, Bool.and_eq_true, decide_eq_true_eq] at hdigit
      omega
  have hemp : (natToBytes n).isEmpty = false := by
    cases hnb : natToBytes n with
    | nil => exact absurd hnb (natToBytes_ne_nil n)
    | cons c cs => rfl
  have hall : (natToBytes n).all isDigit = true :=
    List.all_eq_true.mpr fun x hx => natToBytes_all_digits n x hx
  rw [parseI64, if_neg hne, hemp, hall, digitsVal_natToBytes]
  simp only [Bool.not_true, Bool.or_false, Bool.false_eq_true, if_false]
  rw [if_pos (show n ≤ 2 ^ 63 - 1 by omega)]

theorem parseI64_intToBytes (n : Int) (h1 : -(2 ^ 63) ≤ n) (h2 : n < 2 ^ 63) :
    parseI64 (intToBytes n) = some n := by
  rw [intToBytes]
  split
  · rename_i hneg
    rw [parseI64]
    simp only [List.head?_cons, if_true, List.tail_cons]
    have hne : (natToBytes (-n).toNat).isEmpty = false := by
      cases hnb : natToBytes (-n).toNat with
      | nil => exact absurd hnb (natToBytes_ne_nil _)
      | cons c cs => rfl
    have hall : (natToBytes (-n).toNat).all isDigit = true :=
      List.all_eq_true.mpr fun x hx => natToBytes_all_digits _ x hx
    rw [hne, hall]
    simp only [Bool.not_true, Bool.or_false, if_false]
    rw [digitsVal_natToBytes]
    have hle : (-n).toNat ≤ 2 ^ 63 := by omega
    rw [if_pos hle, Int.toNat_of_nonneg (by omega : (0 : Int) ≤ -n)]
    simp
  · rename_i hpos
    have h0 : 0 ≤ n := by omega
    have hn : n.toNat ≤ 2 ^ 63 - 1 := by omega
    rw [parseI64_natToBytes n.toNat hn, Int.toNat_of_nonneg h0]

theorem decodeIntegerNumber_nat (m : Nat) (hm : m ≤ 2 ^ 63 - 1) (b : List Nat)
    (hb : ∀ c, b.head? = some c → isNumChar c = false) :
    Bencode.decodeIntegerNumber (natToBytes m ++ b) = some ((m : Int), b) := by
  rw [Bencode.decodeIntegerNumber,
    takeNum_append _ _ (fun c hc => isNumChar_of_digit c (natToBytes_all_digits m c hc)) hb]
  simp [parseI64_natToBytes m hm]

theorem decodeIntegerNumber_int (n : Int) (h1 : -(2 ^ 63) ≤ n) (h2 : n < 2 ^ 63) (b : List Nat)
    (hb : ∀ c, b.head? = some c → isNumChar c = false) :
    Bencode.decodeIntegerNumber (intToBytes n ++ b) = some (n, b) := by
  have hall : ∀ c ∈ intToBytes n, isNumChar c = true := by
    intro c hc
    by_cases hneg : n < 0
    · rw [intToBytes, if_pos hneg] at hc
      simp only [List.mem_cons] at hc
      rcases hc with rfl | hc
      · decide
      · exact isNumChar_of_digit c (natToBytes_all_digits _ c hc)
    · rw [intToBytes, if_neg hneg] at hc
      exact isNumChar_of_digit c (natToBytes_all_digits _ c hc)
  rw [Bencode.decodeIntegerNumber, takeNum_append _ _ hall hb]
  simp [parseI64_intToBytes n h1 h2]

namespace Bencode

theorem decodeString_encStr (k : List Nat) (hlen : k.length < 2 ^ 63) (rest : List Nat) :
    decodeString (encStr k ++ rest) =
      some (if validUTF8 k then .str k else .blob k, rest) := by
  have hshape : encStr k ++ rest = natToBytes k.length ++ (58 :: (k ++ rest)) := by
    simp [encStr]
  rw [decodeString, hshape,
    decodeIntegerNumber_nat k.length (by omega) _
      (by intro c hc; simp at hc; subst hc; decide)]
  have htake : (k ++ rest).take k.length = k := List.take_left k rest
  have hdrop : (k ++ rest).drop k.length = rest := List.drop_left k rest
  simp only [Option.some_bind, List.head?_cons, List.tail_cons, Int.toNat_ofNat]
  rw [if_pos trivial, if_pos ⟨by omega, by simp⟩, htake, hdrop]

theorem decodeInteger_enc (n : Int) (h1 : -(2 ^ 63) ≤ n) (h2 : n < 2 ^ 63) (rest : List Nat) :
    decodeInteger (105 :: (intToBytes n ++ 101 :: rest)) = some (.num n, rest) := by
  rw [decodeInteger,
    if_pos (show ((105 : Nat) :: (intToBytes n ++ 101 :: rest)).head? = some 105 from rfl)]
  simp only [List.tail_cons]
  rw [decodeIntegerNumber_int n h1 h2 _ (by intro c hc; simp at hc; subst hc; decide)]
  simp

end Bencode

/-! ### Key order and sorting lemmas -/

theorem lexLt_irrefl : ∀ a : List Nat, lexLt a a = false := by
  intro a
  induction a with
  | nil => rfl
  | cons x as ih => rw [lexLt]; simp [ih]

theorem lexLt_trans : ∀ a b c : List Nat,
    lexLt a b = true → lexLt b c = true → lexLt a c = true := by
  intro a
  induction a with
  | nil =>
    intro b c hab hbc
    cases c with
    | cons z cs => simp [lexLt]
    | nil =>
      cases b with
      | nil => simp [lexLt] at hab
      | cons y bs => simp [lexLt] at hbc
  | cons x as ih =>
    intro b c hab hbc
    cases b with
    | nil => simp [lexLt] at hab
    | cons y bs =>
      cases c with
      | nil => simp [lexLt] at hbc
      | cons z cs =>
        rw [lexLt] at hab hbc ⊢
        by_cases hxy : x < y
        · rw [if_pos hxy] at hab
          by_cases hyz : y < z
          · rw [if_pos (by omega)]
          · rw [if_neg hyz] at hbc
            by_cases hzy : z < y
            · rw [if_pos hzy] at hbc
              exact absurd hbc (by simp)
            · have : y = z := by omega
              subst this
              rw [if_pos hxy]
        · rw [if_neg hxy] at hab
          by_cases hyx : y < x
          · rw [if_pos hyx] at hab
            exact absurd hab (by simp)
          · have hxy' : x = y := by omega
            subst hxy'
            rw [if_neg hyx] at hab
            by_cases hxz : x < z
            · rw [if_pos hxz]
            · rw [if_neg hxz] at hbc ⊢
              by_cases hzx : z < x
              · rw [if_pos hzx] at hbc
                exact absurd hbc (by simp)
              · rw [if_neg hzx] at hbc ⊢
                exact ih bs cs hab hbc

namespace Bencode

theorem sortedKeys_cons (a : List Nat) (ks : List (List Nat))
    (h : sortedKeys (a :: ks) = true) :
    sortedKeys ks = true ∧ ∀ x ∈ ks, lexLt a x = true := by
  induction ks generalizing a with
  | nil => exact ⟨rfl, by simp⟩
  | cons b ks ih =>
    rw [sortedKeys] at h
    simp only [Bool.and_eq_true] at h
    obtain ⟨hab, hrest⟩ := h
    obtain ⟨_, hall⟩ := ih b hrest
    refine ⟨hrest, ?_⟩
    intro x hx
    rcases List.mem_cons.mp hx with rfl | hx
    · exact hab
    · exact lexLt_trans a b x hab (hall x hx)

theorem sortedKeys_nodup (ks : List (List Nat)) (h : sortedKeys ks = true) : ks.Nodup := by
  induction ks with
  | nil => exact List.nodup_nil
  | cons a ks ih =>
    obtain ⟨hks, hall⟩ := sortedKeys_cons a ks h
    refine List.nodup_cons.mpr ⟨?_, ih hks⟩
    intro hmem
    have := hall a hmem
    rw [lexLt_irrefl] at this
    exact absurd this (by simp)

theorem sortEntries_sorted (m : List (List Nat × Value))
    (h : sortedKeys (m.map Prod.fst) = true) : sortEntries m = m := by
  induction m with
  | nil => rfl
  | cons e m ih =>
    obtain ⟨hm, hall⟩ := sortedKeys_cons e.1 (m.map Prod.fst) (by simpa using h)
    rw [sortEntries, ih hm]
    cases m with
    | nil => rfl
    | cons e' m' =>
      rw [insertSorted, if_pos (hall e'.1 (by simp))]

mutual
theorem sortAll_eq_self (v : Value) (h : canonical v = true) : sortAll v = v := by
  cases v with
  | str s => rfl
  | blob b => rfl
  | num n => rfl
  | list vs => rw [sortAll, sortAllL_eq_self vs (by simpa [canonical] using h)]
  | dict m =>
    rw [canonical, Bool.and_eq_true] at h
    rw [sortAll, sortAllD_eq_self m h.1, sortEntries_sorted m h.2]
theorem sortAllL_eq_self (vs : List Value) (h : canonicalL vs = true) : sortAllL vs = vs := by
  cases vs with
  | nil => rfl
  | cons v vs =>
    rw [canonicalL, Bool.and_eq_true] at h
    rw [sortAllL, sortAll_eq_self v h.1, sortAllL_eq_self vs h.2]
theorem sortAllD_eq_self (m : List (List Nat × Value)) (h : canonicalD m = true) :
    sortAllD m = m := by
  cases m with
  | nil => rfl
  | cons e m =>
    obtain ⟨k, v⟩ := e
    rw [canonicalD] at h
    simp only [Bool.and_eq_true] at h
    rw [sortAllD, sortAll_eq_self v h.1.2, sortAllD_eq_self m h.2]
end

theorem encode_eq_encodeT (v : Value) (h : canonical v = true) : encode v = encodeT v := by
  rw [encode, sortAll_eq_self v h]

/-! ### Shape facts about encodings -/

theorem encStr_head_digit (k r : List Nat) :
    ∀ c, (encStr k ++ r).head? = some c → isDigit c = true := by
  intro c hc
  cases hnb : natToBytes k.length with
  | nil => exact absurd hnb (natToBytes_ne_nil _)
  | cons d ds =>
    rw [encStr, hnb] at hc
    simp only [List.cons_append, List.head?_cons, Option.some.injEq] at hc
    rw [← hc]
    exact natToBytes_all_digits _ d (by rw [hnb]; simp)

theorem encStr_length_ge2 (k : List Nat) : 2 ≤ (encStr k).length := by
  cases hnb : natToBytes k.length with
  | nil => exact absurd hnb (natToBytes_ne_nil _)
  | cons d ds =>
    rw [encStr, hnb]
    simp only [List.cons_append, List.length_cons, List.length_append]
    omega

theorem encodeT_ne_nil (v : Value) : encodeT v ≠ [] := by
  cases v with
  | str s =>
    rw [encodeT, encStr]
    cases hnb : natToBytes s.length with
    | nil => exact absurd hnb (natToBytes_ne_nil _)
    | cons d ds => simp
  | blob b =>
    rw [encodeT, encStr]
    cases hnb : natToBytes b.length with
    | nil => exact absurd hnb (natToBytes_ne_nil _)
    | cons d ds => simp
  | num n => simp [encodeT]
  | list vs => simp [encodeT]
  | dict m => simp [encodeT]

theorem encodeT_length_pos (v : Value) : 1 ≤ (encodeT v).length := by
  cases henc : encodeT v with
  | nil => exact absurd henc (encodeT_ne_nil v)
  | cons c cs => simp

theorem encodeT_head_ne_e (v : Value) (r : List Nat) :
    ¬((encodeT v ++ r).head? = some 101) := by
  intro hc
  cases v with
  | str s =>
    have := encStr_head_digit s r 101 (by rw [encodeT] at hc; exact hc)
    simp [isDigit] at this
  | blob b =>
    have := encStr_head_digit b r 101 (by rw [encodeT] at hc; exact hc)
    simp [isDigit] at this
  | num n => simp [encodeT] at hc
  | list vs => simp [encodeT] at hc
  | dict m => simp [encodeT] at hc

theorem insertAssoc_fresh (k : List Nat) (v : Value) (m : List (List Nat × Value))
    (h : ¬k ∈ m.map Prod.fst) : insertAssoc k v m = m ++ [(k, v)] := by
  induction m with
  | nil => rfl
  | cons e m ih =>
    obtain ⟨k', v'⟩ := e
    simp only [List.map_cons, List.mem_cons] at h
    rw [insertAssoc, if_neg (by intro hk; exact h (Or.inl hk.symm)),
      ih fun hk => h (Or.inr hk)]
    simp

end Bencode

namespace Bencode

/-! ### The decode-of-encode round trip -/

mutual

theorem rt_val (v : Value) (hc : canonical v = true) (rest : List Nat) (fuel : Nat)
    (hf : (encodeT v).length < fuel) :
    decodeV fuel (encodeT v ++ rest) = some (v, rest) := by
  rcases fuel with _ | f
  · exact absurd hf (by omega)
  cases v with
  | str s =>
    simp only [canonical, Bool.and_eq_true, decide_eq_true_eq] at hc
    obtain ⟨hutf, hlen⟩ := hc
    cases hnb : natToBytes s.length with
    | nil => exact absurd hnb (natToBytes_ne_nil _)
    | cons d ds =>
      have hd : isDigit d = true := natToBytes_all_digits _ d (by rw [hnb]; simp)
      have hd' : 48 ≤ d ∧ d ≤ 57 := by simpa [isDigit] using hd
      have hshape : encodeT (.str s) ++ rest = d :: (ds ++ 58 :: (s ++ rest)) := by
        simp [encodeT, encStr, hnb]
      rw [hshape, decodeV, if_neg (by omega), if_neg (by omega), if_neg (by omega),
        if_pos hd, ← hshape]
      show decodeString (encStr s ++ rest) = _
      rw [decodeString_encStr s hlen, if_pos hutf]
  | blob b =>
    simp only [canonical, Bool.and_eq_true, decide_eq_true_eq, Bool.not_eq_true'] at hc
    obtain ⟨hutf, hlen⟩ := hc
    cases hnb : natToBytes b.length with
    | nil => exact absurd hnb (natToBytes_ne_nil _)
    | cons d ds =>
      have hd : isDigit d = true := natToBytes_all_digits _ d (by rw [hnb]; simp)
      have hd' : 48 ≤ d ∧ d ≤ 57 := by simpa [isDigit] using hd
      have hshape : encodeT (.blob b) ++ rest = d :: (ds ++ 58 :: (b ++ rest)) := by
        simp [encodeT, encStr, hnb]
      rw [hshape, decodeV, if_neg (by omega), if_neg (by omega), if_neg (by omega),
        if_pos hd, ← hshape]
      show decodeString (encStr b ++ rest) = _
      rw [decodeString_encStr b hlen, if_neg (by simp [hutf])]
  | num n =>
    simp only [canonical, Bool.and_eq_true, decide_eq_true_eq] at hc
    have hshape : encodeT (.num n) ++ rest = 105 :: (intToBytes n ++ 101 :: rest) := by
      simp [encodeT]
    rw [hshape, decodeV, if_neg (by omega), if_neg (by omega), if_pos rfl]
    exact decodeInteger_enc n hc.1 hc.2 rest
  | list vs =>
    simp only [canonical] at hc
    have hshape : encodeT (.list vs) ++ rest = 108 :: (encodeTL vs ++ 101 :: rest) := by
      simp [encodeT]
    have hlen : (encodeTL vs).length + 1 < f := by
      rw [encodeT] at hf
      simp only [List.length_append, List.cons_append, List.length_cons] at hf
      omega
    rw [hshape, decodeV, if_neg (by omega), if_pos rfl]
    have := rt_list vs hc rest f [] hlen
    simpa using this
  | dict m =>
    simp only [canonical, Bool.and_eq_true] at hc
    have hnd : (([] : List (List Nat × Value)).map Prod.fst ++ m.map Prod.fst).Nodup := by
      simpa using sortedKeys_nodup _ hc.2
    have hshape : encodeT (.dict m) ++ rest = 100 :: (encodeTD m ++ 101 :: rest) := by
      simp [encodeT]
    have hlen : (encodeTD m).length + 1 < f := by
      rw [encodeT] at hf
      simp only [List.length_append, List.cons_append, List.length_cons] at hf
      omega
    rw [hshape, decodeV, if_pos rfl]
    have := rt_dict m hc.1 rest f [] hnd hlen
    simpa using this

theorem rt_list (vs : List Value) (hc : canonicalL vs = true) (rest : List Nat) (fuel : Nat)
    (acc : List Value) (hf : (encodeTL vs).length + 1 < fuel) :
    decodeListLoop fuel (encodeTL vs ++ 101 :: rest) acc = some (.list (acc ++ vs), rest) := by
  rcases fuel with _ | f
  · exact absurd hf (by omega)
  cases vs with
  | nil =>
    rw [show encodeTL [] ++ 101 :: rest = 101 :: rest from by simp [encodeTL]]
    rw [decodeListLoop, if_pos (show ((101 : Nat) :: rest).head? = some 101 from rfl)]
    simp
  | cons v vs' =>
    simp only [canonicalL, Bool.and_eq_true] at hc
    have hlenV := encodeT_length_pos v
    have hf' : (encodeT v).length + (encodeTL vs').length + 1 < f + 1 := by
      simpa [encodeTL, List.length_append] using hf
    have hshape : encodeTL (v :: vs') ++ 101 :: rest
        = encodeT v ++ (encodeTL vs' ++ 101 :: rest) := by simp [encodeTL]
    rw [hshape, decodeListLoop, if_neg (encodeT_head_ne_e v _),
      rt_val v hc.1 _ f (by omega)]
    simp only [Option.some_bind]
    have := rt_list vs' hc.2 rest f (acc ++ [v]) (by omega)
    simpa using this

theorem rt_dict (m : List (List Nat × Value)) (hc : canonicalD m = true) (rest : List Nat)
    (fuel : Nat) (acc : List (List Nat × Value))
    (hnd : (acc.map Prod.fst ++ m.map Prod.fst).Nodup)
    (hf : (encodeTD m).length + 1 < fuel) :
    decodeDictLoop fuel (encodeTD m ++ 101 :: rest) acc = some (.dict (acc ++ m), rest) := by
  rcases fuel with _ | f
  · exact absurd hf (by omega)
  cases m with
  | nil =>
    rw [show encodeTD [] ++ 101 :: rest = 101 :: rest from by simp [encodeTD]]
    rw [decodeDictLoop, if_pos (show ((101 : Nat) :: rest).head? = some 101 from rfl)]
    simp
  | cons e m' =>
    obtain ⟨k, v⟩ := e
    simp only [canonicalD, Bool.and_eq_true, decide_eq_true_eq] at hc
    obtain ⟨⟨⟨hk1, hk2⟩, hv⟩, hm'⟩ := hc
    have hshape : encodeTD ((k, v) :: m') ++ 101 :: rest
        = encStr k ++ (encodeT v ++ (encodeTD m' ++ 101 :: rest)) := by
      simp [encodeTD]
    have hhead : ¬((encStr k ++ (encodeT v ++ (encodeTD m' ++ 101 :: rest))).head?
        = some 101) := by
      intro h
      have := encStr_head_digit k _ 101 h
      simp [isDigit] at this
    have hlenS := encStr_length_ge2 k
    have hlenV := encodeT_length_pos v
    have hf' : (encStr k).length + ((encodeT v).length + (encodeTD m').length) + 1
        < f + 1 := by
      simpa [encodeTD, List.length_append] using hf
    have hfresh : ¬ k ∈ acc.map Prod.fst := by
      rw [List.nodup_append] at hnd
      intro hkacc
      exact hnd.2.2 hkacc (by simp)
    have hnd' : ((acc ++ [(k, v)]).map Prod.fst ++ m'.map Prod.fst).Nodup := by
      simpa [List.map_append, List.append_assoc] using hnd
    rw [hshape, decodeDictLoop, if_neg hhead, decodeString_encStr k hk2, if_pos hk1]
    simp only [Option.some_bind, keyOf]
    rw [rt_val v hv _ f (by omega)]
    simp only [Option.some_bind]
    rw [insertAssoc_fresh k v acc hfresh,
      rt_dict m' hm' rest f (acc ++ [(k, v)]) hnd' (by omega)]
    simp

end

end Bencode

namespace Bencode

/-! ### Top-level decode corollaries -/

theorem decode_encodeT (v : Value) (hc : canonical v = true) :
    decode (encodeT v) = some (v, []) := by
  rw [decode]
  have := rt_val v hc [] (2 * (encodeT v).length + 4) (by omega)
  simpa using this

theorem encodeDecode_encode (v : Value) (hc : canonical v = true) :
    encodeDecode (encode v) = some (encode v) := by
  rw [encode_eq_encodeT v hc, encodeDecode, decode_encodeT v hc]
  simp [encode_eq_encodeT v hc]

theorem decode_suffices (l : List Nat) (r : Option (Value × List Nat))
    (h : ∀ fuel, l.length < fuel → decodeV fuel l = r) : decode l = r := by
  rw [decode]
  exact h _ (by omega)

end Bencode

/-! ### Chunk lemmas -/

theorem chunksExactAux_stop (k : Nat) (l : List Nat) (h : k = 0 ∨ l.length < k) :
    ∀ fuel, chunksExactAux k fuel l = [] := by
  intro fuel
  cases fuel with
  | zero => rfl
  | succ f => rw [chunksExactAux, if_pos h]

theorem chunksExactAux_adequate (k : Nat) :
    ∀ fuel (l : List Nat), l.length ≤ fuel → chunksExactAux k fuel l = chunksExact k l := by
  intro fuel
  induction fuel using Nat.strong_induction_on with
  | _ fuel ih =>
    intro l hl
    rcases fuel with _ | f
    · have : l = [] := List.length_eq_zero.mp (by omega)
      subst this
      rfl
    · by_cases hstop : k = 0 ∨ l.length < k
      · rw [chunksExactAux, if_pos hstop, chunksExact, chunksExactAux_stop k l hstop]
      · push_neg at hstop
        obtain ⟨m, hm⟩ : ∃ m, l.length = m + 1 := ⟨l.length - 1, by omega⟩
        rw [chunksExactAux, if_neg (by omega), chunksExact, hm, chunksExactAux,
          if_neg (by omega)]
        rw [ih f (by omega) (l.drop k) (by simp; omega),
          ih m (by omega) (l.drop k) (by simp; omega)]

theorem chunksExact_cons (k : Nat) (hk : 0 < k) (c rest : List Nat) (hc : c.length = k) :
    chunksExact k (c ++ rest) = c :: chunksExact k rest := by
  obtain ⟨m, hm⟩ : ∃ m, (c ++ rest).length = m + 1 :=
    ⟨(c ++ rest).length - 1, by simp [hc]; omega⟩
  rw [chunksExact, hm, chunksExactAux, if_neg (by simp [hc]; omega),
    List.take_left' hc, List.drop_left' hc]
  congr 1
  apply chunksExactAux_adequate
  simp [hc] at hm ⊢
  omega

theorem chunksExact_flatten_chunks (k : Nat) (hk : 0 < k) (chunks : List (List Nat))
    (h : ∀ c ∈ chunks, c.length = k) : chunksExact k chunks.flatten = chunks := by
  induction chunks with
  | nil => rfl
  | cons c cs ih =>
    rw [List.flatten_cons, chunksExact_cons k hk c cs.flatten (h c (by simp)),
      ih fun x hx => h x (by simp [hx])]

theorem flatten_chunksExact (k : Nat) (hk : 0 < k) :
    ∀ n (l : List Nat), l.length = n → l.length % k = 0 → (chunksExact k l).flatten = l := by
  intro n
  induction n using Nat.strong_induction_on with
  | _ n ih =>
    intro l hlen hmod
    rcases Nat.eq_zero_or_pos n with rfl | hpos
    · have : l = [] := List.length_eq_zero.mp hlen
      subst this
      rfl
    · have hk_le : k ≤ l.length := by
        have hdvd : k ∣ l.length := Nat.dvd_of_mod_eq_zero hmod
        exact Nat.le_of_dvd (by omega) hdvd
      have htk : (l.take k).length = k := by simp; omega
      have hsplit := List.take_append_drop k l
      calc (chunksExact k l).flatten
          = (chunksExact k (l.take k ++ l.drop k)).flatten := by rw [hsplit]
        _ = l.take k ++ (chunksExact k (l.drop k)).flatten := by
            rw [chunksExact_cons k hk _ _ htk, List.flatten_cons]
        _ = l.take k ++ l.drop k := by
            have hdvd : k ∣ l.length := Nat.dvd_of_mod_eq_zero hmod
            have hmod' : (l.length - k) % k = 0 := by
              obtain ⟨c, hc⟩ := hdvd
              rcases Nat.eq_zero_or_pos c with rfl | hcpos
              · simp [hc]
              · obtain ⟨d, rfl⟩ : ∃ d, c = d + 1 := ⟨c - 1, by omega⟩
                rw [Nat.mul_succ] at hc
                have hld : l.length - k = k * d := by omega
                rw [hld]
                exact Nat.mul_mod_right k d
            rw [ih (l.drop k).length (by simp; omega) _ rfl (by simpa using hmod')]
        _ = l := hsplit

/-! ### Decoded values only hold non-UTF-8 blobs -/

namespace Bencode

theorem blobsOkL_append (a b : List Value) :
    blobsOkL (a ++ b) = (blobsOkL a && blobsOkL b) := by
  induction a with
  | nil => simp [blobsOkL]
  | cons v a ih => simp [blobsOkL, ih, Bool.and_assoc]

theorem blobsOkD_insertAssoc (k : List Nat) (v : Value) (m : List (List Nat × Value))
    (hm : blobsOkD m = true) (hv : blobsOk v = true) :
    blobsOkD (insertAssoc k v m) = true := by
  induction m with
  | nil => simp [insertAssoc, blobsOkD, hv]
  | cons e m ih =>
    obtain ⟨k', v'⟩ := e
    rw [blobsOkD, Bool.and_eq_true] at hm
    rw [insertAssoc]
    split
    · simp [blobsOkD, hv, hm.2]
    · rw [blobsOkD, ih hm.2, hm.1]
      rfl

theorem blobsOkD_lookup (key : List Nat) (m : List (List Nat × Value)) (v : Value)
    (hm : blobsOkD m = true) (h : lookupAssoc key m = some v) : blobsOk v = true := by
  induction m with
  | nil => simp [lookupAssoc] at h
  | cons e m ih =>
    obtain ⟨k', v'⟩ := e
    rw [blobsOkD, Bool.and_eq_true] at hm
    rw [lookupAssoc] at h
    split at h
    · cases h
      exact hm.1
    · exact ih hm.2 h

theorem decodeString_blobsOk (l : List Nat) (v : Value) (r : List Nat)
    (h : decodeString l = some (v, r)) : blobsOk v = true := by
  rw [decodeString] at h
  cases hdin : decodeIntegerNumber l with
  | none => rw [hdin] at h; exact absurd h (by simp)
  | some p =>
    obtain ⟨n, rest⟩ := p
    rw [hdin] at h
    simp only [Option.some_bind] at h
    split_ifs at h with h1 h2 h3
    · cases h
      rfl
    · cases h
      rw [blobsOk]
      simp only [Bool.not_eq_true] at h3
      simp [h3]

theorem decodeInteger_blobsOk (l : List Nat) (v : Value) (r : List Nat)
    (h : decodeInteger l = some (v, r)) : blobsOk v = true := by
  rw [decodeInteger] at h
  split_ifs at h with h1
  · cases hdin : decodeIntegerNumber l.tail with
    | none => rw [hdin] at h; exact absurd h (by simp)
    | some p =>
      obtain ⟨n, r2⟩ := p
      rw [hdin] at h
      simp only [Option.some_bind] at h
      split_ifs at h
      cases h
      rfl

theorem decode_blobsOk_all : ∀ fuel : Nat,
    (∀ l v r, decodeV fuel l = some (v, r) → blobsOk v = true) ∧
    (∀ l acc v r, blobsOkL acc = true → decodeListLoop fuel l acc = some (v, r) →
      blobsOk v = true) ∧
    (∀ l acc v r, blobsOkD acc = true → decodeDictLoop fuel l acc = some (v, r) →
      blobsOk v = true) := by
  intro fuel
  induction fuel with
  | zero =>
    refine ⟨?_, ?_, ?_⟩ <;> intro l
    · intro v r h
      simp [decodeV] at h
    · intro acc v r _ h
      simp [decodeListLoop] at h
    · intro acc v r _ h
      simp [decodeDictLoop] at h
  | succ f ih =>
    obtain ⟨ihV, ihL, ihD⟩ := ih
    refine ⟨?_, ?_, ?_⟩
    · intro l v r h
      cases l with
      | nil => simp [decodeV] at h
      | cons c cs =>
        rw [decodeV] at h
        split_ifs at h
        · exact ihD cs [] v r rfl h
        · exact ihL cs [] v r rfl h
        · exact decodeInteger_blobsOk _ v r h
        · exact decodeString_blobsOk _ v r h
    · intro l acc v r hacc h
      rw [decodeListLoop] at h
      split_ifs at h
      · cases h
        exact hacc
      · cases hdv : decodeV f l with
        | none => rw [hdv] at h; exact absurd h (by simp)
        | some p =>
          obtain ⟨v', rest'⟩ := p
          rw [hdv] at h
          simp only [Option.some_bind] at h
          have hv' := ihV l v' rest' hdv
          exact ihL rest' (acc ++ [v']) v r
            (by simp [blobsOkL_append, blobsOkL, hacc, hv']) h
    · intro l acc v r hacc h
      rw [decodeDictLoop] at h
      split_ifs at h
      · cases h
        exact hacc
      · cases hds : decodeString l with
        | none => rw [hds] at h; exact absurd h (by simp)
        | some p =>
          obtain ⟨kv, rest'⟩ := p
          rw [hds] at h
          simp only [Option.some_bind] at h
          cases hko : keyOf kv with
          | none => rw [hko] at h; exact absurd h (by simp)
          | some k =>
            rw [hko] at h
            simp only [Option.some_bind] at h
            cases hdv : decodeV f rest' with
            | none => rw [hdv] at h; exact absurd h (by simp)
            | some q =>
              obtain ⟨v', rest2⟩ := q
              rw [hdv] at h
              simp only [Option.some_bind] at h
              have hv' := ihV rest' v' rest2 hdv
              exact ihD rest2 (insertAssoc k v' acc) v r
                (blobsOkD_insertAssoc k v' acc hacc hv') h

theorem decode_blobsOk (l : List Nat) (v : Value) (r : List Nat)
    (h : decode l = some (v, r)) : blobsOk v = true :=
  (decode_blobsOk_all (2 * l.length + 4)).1 l v r h

end Bencode

/-! ### Block arithmetic lemmas -/

theorem sum_min_pieces (P : Nat) (hP : 0 < P) :
    ∀ n L, (L + P - 1) / P = n → (∑ i ∈ Finset.range n, min (L - i * P) P) = L := by
  intro n
  induction n with
  | zero =>
    intro L h
    have hL0 : L = 0 := by
      by_contra hL
      have h1 : P ≤ L + P - 1 := by omega
      have := (Nat.one_le_div_iff hP).mpr h1
      omega
    subst hL0
    simp
  | succ n ih =>
    intro L h
    by_cases hLP : L ≤ P
    · have hL1 : 1 ≤ L := by
        by_contra hL
        have hL0 : L = 0 := by omega
        subst hL0
        rw [Nat.div_eq_of_lt (by omega)] at h
        omega
      have hone : (L + P - 1) / P = 1 := by
        have := Nat.div_eq_of_lt_le (by omega : 1 * P ≤ L + P - 1)
          (by omega : L + P - 1 < (1 + 1) * P)
        omega
      have hn0 : n = 0 := by omega
      subst hn0
      rw [Finset.sum_range_one]
      simp
      omega
    · push_neg at hLP
      have hL' : (L - P + P - 1) / P = n := by
        have e1 : L + P - 1 = (L - 1) + P := by omega
        have e2 : L - P + P - 1 = (L - P - 1) + P := by omega
        have e3 : L - 1 = (L - P - 1) + P := by omega
        rw [e1, Nat.add_div_right _ hP, e3, Nat.add_div_right _ hP] at h
        rw [e2, Nat.add_div_right _ hP]
        omega
      have hsum := ih (L - P) hL'
      rw [Finset.sum_range_succ']
      have hcong : ∀ i ∈ Finset.range n,
          min (L - (i + 1) * P) P = min ((L - P) - i * P) P := by
        intro i _
        rw [show (i + 1) * P = P + i * P from by ring, ← Nat.sub_sub]
      rw [Finset.sum_congr rfl hcong, hsum]
      rw [show L - 0 * P = L from by simp, min_eq_right (by omega : P ≤ L)]
      omega

theorem blockLength_eq_min (pieceLength k : Nat) (hsz : pieceLength < 4294967296)
    (hk : k * 16384 ≤ pieceLength) :
    blockLength pieceLength k = min 16384 (pieceLength - k * 16384) := by
  rw [blockLength]
  have h1 : pieceLength % 4294967296 = pieceLength := Nat.mod_eq_of_lt hsz
  have h2 : k * 16384 % 4294967296 = k * 16384 := Nat.mod_eq_of_lt (by omega)
  rw [h1, h2]
  have h3 : pieceLength + 4294967296 - k * 16384 = (pieceLength - k * 16384) + 4294967296 := by
    omega
  rw [h3, Nat.add_mod_right, Nat.mod_eq_of_lt (by omega), Nat.min_comm]

theorem blockBegin_eq (k : Nat) (hk : k * 16384 < 4294967296) : blockBegin k = k * 16384 := by
  rw [blockBegin, Nat.mod_eq_of_lt (by omega), Nat.mod_eq_of_lt (by omega)]

theorem blocksToDownload_mul_ge (sz : Nat) : sz ≤ blocksToDownload sz * 16384 := by
  rw [blocksToDownload]
  omega

theorem blocksToDownload_lt (sz k : Nat) (hk : k < blocksToDownload sz) :
    k * 16384 < sz := by
  rw [blocksToDownload] at hk
  omega

theorem downloadLoop_consumes : ∀ (n : Nat) (msgs : List (MessageId × List Nat)) w rem,
    downloadLoop n msgs = some (w, rem) →
    ∃ consumed, msgs = consumed ++ rem ∧ consumed.length = n := by
  intro n
  induction n with
  | zero =>
    intro msgs w rem h
    rw [downloadLoop] at h
    cases h
    exact ⟨[], rfl, rfl⟩
  | succ k ih =>
    intro msgs w rem h
    cases msgs with
    | nil => exact absurd h (by simp [downloadLoop])
    | cons m rest =>
      obtain ⟨id, payload⟩ := m
      rw [downloadLoop] at h
      split_ifs at h with hid
      cases hdl : downloadLoop k rest with
      | none => rw [hdl] at h; exact absurd h (by simp)
      | some q =>
        rw [hdl] at h
        obtain ⟨w', rem'⟩ := q
        simp only [Option.map_some'] at h
        obtain ⟨consumed, hc1, hc2⟩ := ih rest w' rem' hdl
        injection h with h'
        injection h' with ha hb
        exact ⟨(id, payload) :: consumed, by simp [hc1, ← hb], by simp [hc2]⟩

/-! ### Integer cast lemmas -/

theorem usizeToI64_i64ToUsize (n : Int) (h1 : -(2 ^ 63) ≤ n) (h2 : n < 2 ^ 63) :
    usizeToI64 (i64ToUsize n) = n := by
  rw [i64ToUsize, usizeToI64]
  have hmod : (0 : Int) ≤ n % 2 ^ 64 := Int.emod_nonneg n (by norm_num)
  have hmod2 : n % 2 ^ 64 < 2 ^ 64 := Int.emod_lt_of_pos n (by norm_num)
  omega

/-! ### Claim theorems -/

/-- Claim C1, as stated, is false: the byte string `d1:\xff i1e e`
(hex `64 31 3a ff 69 31 65 65`) is a canonical bencoded dictionary — its
single key is unique and trivially sorted, its integer value `i1e` has no
leading zero — yet `Bencode::decode` panics on it instead of reproducing
it: the dictionary key is decoded as a `Blob` (0xff is not UTF-8), whose
`Display` form has no surrounding quotes, so the `strip_prefix('"')`
`.unwrap()` of `decode_dictionary` (`bencode.rs:172-173`) panics. Hence
`encode(decode(B)) == B` fails on this canonical input. -/
theorem c1_roundtrip_counterexample :
    Bencode.CB [100, 49, 58, 255, 105, 49, 101, 101] ∧
    Bencode.decode [100, 49, 58, 255, 105, 49, 101, 101] = none ∧
    Bencode.encodeDecode [100, 49, 58, 255, 105, 49, 101, 101] ≠
      some [100, 49, 58, 255, 105, 49, 101, 101] := by
  refine ⟨?_, by rfl, by decide⟩
  have hv : ∀ e ∈ [(([255] : List Nat), ([105, 49, 101] : List Nat))], Bencode.CB e.2 := by
    intro e he
    simp only [List.mem_singleton] at he
    subst he
    exact Bencode.CB.numPos [49] (by simp) (by decide) (by decide)
  exact Bencode.CB.dict [([255], [105, 49, 101])] (by decide) (by decide) hv

/-- Claim C1 (amended): for every canonical bencoded byte string whose
dictionary keys are valid UTF-8 — equivalently, every byte string
`Bencode.encode v` of a `canonical` value `v` (strings UTF-8, blobs
non-UTF-8, integers in `i64`, byte-string lengths below `2^63`,
dictionaries key-sorted with the UTF-8 keys a Rust `HashMap<String, _>`
forces) — decoding and re-encoding reproduces the original bytes:
`encode(decode(B)) == B`. -/
theorem c1_roundtrip_amended (B : List Nat) (v : Bencode.Value)
    (hv : Bencode.canonical v = true) (hB : Bencode.encode v = B) :
    Bencode.encodeDecode B = some B := by
  subst hB
  exact Bencode.encodeDecode_encode v hv

/-- Witness for `c1_roundtrip_amended` at a concrete canonical value: a
dictionary with an `i64` number, a non-UTF-8 blob and a nested list. -/
theorem c1_roundtrip_amended_witness :
    Bencode.canonical
        (.dict [([97], .num (-3)), ([98], .blob [200]),
          ([99], .list [.str [104, 105], .num 0])]) = true ∧
    Bencode.encodeDecode
        (Bencode.encode (.dict [([97], .num (-3)), ([98], .blob [200]),
          ([99], .list [.str [104, 105], .num 0])])) =
      some (Bencode.encode (.dict [([97], .num (-3)), ([98], .blob [200]),
          ([99], .list [.str [104, 105], .num 0])])) :=
  ⟨rfl, c1_roundtrip_amended _
    (.dict [([97], .num (-3)), ([98], .blob [200]),
      ([99], .list [.str [104, 105], .num 0])]) (by decide) rfl⟩

/-- Claim C3 is right and the code is wrong: the source's own
`// TODO: Verify piece hash` (`tracker.rs:131`) marks the missing check.
`download_piece` writes every received block's `payload[8..]` to the file
and finishes the piece without ever computing a SHA-1 or comparing it to
`info.pieces[i]`. At the failing input below (a one-byte piece whose
declared hash is twenty zero bytes, while the received byte `0x41` hashes
differently) the session still returns the bytes successfully. -/
theorem c3_piece_hash_unverified :
    downloadPieceWrites 1 1 0 [(MessageId.piece, [0, 0, 0, 0, 0, 0, 0, 0, 65])] =
      some ([65], []) ∧
    sha1 [65] ≠ List.replicate 20 0 := by
  exact ⟨rfl, by decide⟩

/-- Claim C4, as stated, is false for piece sizes of 2^32 and above: at
`L = P = 2^32`, `i = 0`, `k = 0` the claim demands
`len_0 = min(16384, piece_size) = 16384`, but `piece_length as u32`
truncates 2^32 to 0 (`tracker.rs:111-112`), so the session computes
`min(0 - 0, 16384) = 0` as the block length. -/
theorem c4_block_arithmetic_counterexample :
    0 * 2 ^ 32 < 2 ^ 32 ∧ 0 < 2 ^ 32 ∧
    pieceSize (2 ^ 32) (2 ^ 32) 0 = 2 ^ 32 ∧
    blockLength (pieceSize (2 ^ 32) (2 ^ 32) 0) 0 = 0 ∧
    blockLength (pieceSize (2 ^ 32) (2 ^ 32) 0) 0 ≠
      min 16384 (pieceSize (2 ^ 32) (2 ^ 32) 0 - blockBegin 0) := by
  refine ⟨by decide, by decide, by decide, by decide, by decide⟩

/-- Claim C4 (amended): for piece lengths below 2^32 (so the `u32` casts
of `tracker.rs:110-112` are lossless and the `f64` ceiling of line 102 is
exact) the block arithmetic is as claimed: exactly
`ceil(min(P, L - i*P) / 16384)` blocks are requested (the download loop
consumes exactly that many responses), block `k` starts at `k * 16384`
and carries `min(16384, piece_size - k*16384)` bytes, no block exceeds
16384 bytes, and the block lengths of all pieces sum to the total
length `L`. -/
theorem c4_block_arithmetic_amended (L P i : Nat) (hP : 0 < P) (hP32 : P < 2 ^ 32)
    (hi : i * P < L) :
    blocksToDownload (pieceSize L P i) = (pieceSize L P i + 16384 - 1) / 16384 ∧
    (∀ k, k < blocksToDownload (pieceSize L P i) →
      blockBegin k = k * 16384 ∧
      blockLength (pieceSize L P i) k = min 16384 (pieceSize L P i - k * 16384) ∧
      blockLength (pieceSize L P i) k ≤ 16384) ∧
    (∀ msgs w rem, downloadPieceWrites L P i msgs = some (w, rem) →
      ∃ consumed, msgs = consumed ++ rem ∧
        consumed.length = blocksToDownload (pieceSize L P i)) ∧
    (∑ j ∈ Finset.range ((L + P - 1) / P),
      ∑ k ∈ Finset.range (blocksToDownload (pieceSize L P j)),
        blockLength (pieceSize L P j) k) = L := by
  have hsz32 : ∀ j, pieceSize L P j < 2 ^ 32 := fun j => by
    have : pieceSize L P j ≤ P := min_le_right _ _
    omega
  have hblock : ∀ j k, k < blocksToDownload (pieceSize L P j) →
      blockBegin k = k * 16384 ∧
      blockLength (pieceSize L P j) k = min 16384 (pieceSize L P j - k * 16384) ∧
      blockLength (pieceSize L P j) k ≤ 16384 := by
    intro j k hk
    have hklt : k * 16384 < pieceSize L P j := blocksToDownload_lt _ k hk
    have hb := blockBegin_eq k (by have := hsz32 j; omega)
    have hl := blockLength_eq_min (pieceSize L P j) k (hsz32 j) (by omega)
    exact ⟨hb, hl, by rw [hl]; exact min_le_left _ _⟩
  refine ⟨by rw [blocksToDownload]; omega, hblock i, ?_, ?_⟩
  · intro msgs w rem h
    exact downloadLoop_consumes _ msgs w rem h
  · have hinner : ∀ j, (∑ k ∈ Finset.range (blocksToDownload (pieceSize L P j)),
        blockLength (pieceSize L P j) k) = pieceSize L P j := by
      intro j
      have hcong : ∀ k ∈ Finset.range (blocksToDownload (pieceSize L P j)),
          blockLength (pieceSize L P j) k = min (pieceSize L P j - k * 16384) 16384 := by
        intro k hk
        rw [(hblock j k (Finset.mem_range.mp hk)).2.1, Nat.min_comm]
      rw [Finset.sum_congr rfl hcong]
      exact sum_min_pieces 16384 (by omega) _ _ rfl
    rw [Finset.sum_congr rfl fun j _ => hinner j]
    have hps : ∀ j ∈ Finset.range ((L + P - 1) / P),
        pieceSize L P j = min (L - j * P) P := fun j _ => rfl
    rw [Finset.sum_congr rfl hps]
    exact sum_min_pieces P hP _ L rfl

/-- Witness for `c4_block_arithmetic_amended`: the block lengths of a
torrent with total length 100 and piece length 30 sum to 100. -/
theorem c4_block_arithmetic_amended_witness :
    (∑ j ∈ Finset.range ((100 + 30 - 1) / 30),
      ∑ k ∈ Finset.range (blocksToDownload (pieceSize 100 30 j)),
        blockLength (pieceSize 100 30 j) k) = 100 :=
  (c4_block_arithmetic_amended 100 30 2 (by decide) (by decide) (by decide)).2.2.2

/-- Claim C5, as stated, is false: `Tracker::handshake`
(`tracker.rs:32-54`) never compares the remote frame's `info_hash` with
the local torrent's. A well-formed 68-byte reply whose info-hash field
(twenty `0x01` bytes) differs from the local info-hash (twenty zero
bytes) is parsed and returned — peer id included — instead of producing
an error and closing the connection. -/
theorem c5_handshake_counterexample :
    Tracker.handshake (List.replicate 20 0)
        (19 :: ([66, 105, 116, 84, 111, 114, 114, 101, 110, 116, 32, 112, 114, 111, 116,
          111, 99, 111, 108] ++ List.replicate 8 0 ++ List.replicate 20 1 ++
          List.replicate 20 2)) =
      some ⟨[66, 105, 116, 84, 111, 114, 114, 101, 110, 116, 32, 112, 114, 111, 116,
          111, 99, 111, 108], List.replicate 8 0, List.replicate 20 1,
          List.replicate 20 2⟩ ∧
    List.replicate 20 1 ≠ List.replicate 20 0 := by
  exact ⟨by decide, by decide⟩

/-- Claim C5 (amended): after sending its frame and reading exactly 68
bytes, the session parses the reply with `Handshake::from_bytes` and
surfaces the whole remote handshake (peer id included) to the caller; no
info-hash comparison is performed, so the result is the same whatever the
local info-hash is, and a mismatching remote frame is accepted rather
than rejected. -/
theorem c5_handshake_amended (localHash reply : List Nat) (hs : Handshake)
    (h : Handshake.fromBytes reply = some hs) :
    Tracker.handshake localHash reply = some hs ∧
    (∀ other : List Nat, Tracker.handshake other reply = some hs) :=
  ⟨h, fun _ => h⟩

/-- Witness for `c5_handshake_amended` at the mismatching frame of the
counterexample: the parse succeeds and is surfaced for any local hash. -/
theorem c5_handshake_amended_witness :
    Handshake.fromBytes
        (19 :: ([66, 105, 116, 84, 111, 114, 114, 101, 110, 116, 32, 112, 114, 111, 116,
          111, 99, 111, 108] ++ List.replicate 8 0 ++ List.replicate 20 1 ++
          List.replicate 20 2)) =
      some ⟨[66, 105, 116, 84, 111, 114, 114, 101, 110, 116, 32, 112, 114, 111, 116,
          111, 99, 111, 108], List.replicate 8 0, List.replicate 20 1,
          List.replicate 20 2⟩ ∧
    Tracker.handshake (List.replicate 20 0)
        (19 :: ([66, 105, 116, 84, 111, 114, 114, 101, 110, 116, 32, 112, 114, 111, 116,
          111, 99, 111, 108] ++ List.replicate 8 0 ++ List.replicate 20 1 ++
          List.replicate 20 2)) =
      some ⟨[66, 105, 116, 84, 111, 114, 114, 101, 110, 116, 32, 112, 114, 111, 116,
          111, 99, 111, 108], List.replicate 8 0, List.replicate 20 1,
          List.replicate 20 2⟩ :=
  ⟨by decide, (c5_handshake_amended _ _ _ (by decide)).1⟩

/-- Claim C7, as stated, is false: a keep-alive (length prefix zero) does
not make `Message::read_from_socket` silently continue — it panics. After
reading the 4-byte length 0 and a 0-byte body, `buf.split_first()` on the
empty buffer is `None` and the `.unwrap()` (`tracker.rs:192`) panics. -/
theorem c7_keepalive_counterexample :
    beU32 0 0 0 0 = 0 ∧ Message.readFromSocket [0, 0, 0, 0] = none := by
  exact ⟨rfl, rfl⟩

/-- Claim C7 (amended): every incoming frame whose 4-byte big-endian
length prefix is zero makes `Message::read_from_socket` panic (the
`split_first().unwrap()` on an empty buffer), whatever else the stream
holds; keep-alives are rejected with a crash, not ignored. -/
theorem c7_keepalive_amended (s : List Nat) :
    Message.readFromSocket (0 :: 0 :: 0 :: 0 :: s) = none := by
  rw [Message.readFromSocket]
  simp [beU32]

/-- Claim C8, as stated, is false: decoding `d1:ai1e1:ai2ee`, whose key
`a` appears twice, does not fail — `decode_dictionary` stores the entries
with `HashMap::insert` (`bencode.rs:178`), so the second value overwrites
the first and a dictionary is returned. -/
theorem c8_duplicate_key_counterexample :
    Bencode.decode [100, 49, 58, 97, 105, 49, 101, 49, 58, 97, 105, 50, 101, 101] =
      some (.dict [([97], .num 2)], []) := by rfl

/-- Claim C8 (amended): a bencoded dictionary that binds the same
(UTF-8, decodable) key twice decodes successfully to a dictionary in
which the later value has overwritten the earlier one. -/
theorem c8_duplicate_key_amended (k : List Nat) (v1 v2 : Bencode.Value)
    (hk : validUTF8 k = true) (hk2 : k.length < 2 ^ 63)
    (hv1 : Bencode.canonical v1 = true) (hv2 : Bencode.canonical v2 = true) :
    Bencode.decode (100 :: (Bencode.encStr k ++ (Bencode.encodeT v1 ++
        (Bencode.encStr k ++ (Bencode.encodeT v2 ++ [101]))))) =
      some (.dict [(k, v2)], []) := by
  apply Bencode.decode_suffices
  intro fuel hf
  simp only [List.length_cons, List.length_append] at hf
  have hlenS := Bencode.encStr_length_ge2 k
  have hl1 := Bencode.encodeT_length_pos v1
  have hl2 := Bencode.encodeT_length_pos v2
  have hhead : ∀ r : List Nat, ¬((Bencode.encStr k ++ r).head? = some 101) := by
    intro r hcontra
    have := Bencode.encStr_head_digit k r 101 hcontra
    simp [isDigit] at this
  rcases fuel with _ | f
  · omega
  rw [Bencode.decodeV, if_pos rfl]
  rcases f with _ | f1
  · omega
  rw [Bencode.decodeDictLoop, if_neg (hhead _), Bencode.decodeString_encStr k hk2,
    if_pos hk]
  simp only [Option.some_bind, Bencode.keyOf]
  rw [Bencode.rt_val v1 hv1 _ f1 (by omega)]
  simp only [Option.some_bind]
  rw [show Bencode.insertAssoc k v1 [] = [(k, v1)] from rfl]
  rcases f1 with _ | f2
  · omega
  rw [Bencode.decodeDictLoop, if_neg (hhead _), Bencode.decodeString_encStr k hk2,
    if_pos hk]
  simp only [Option.some_bind, Bencode.keyOf]
  rw [Bencode.rt_val v2 hv2 [101] f2 (by omega)]
  simp only [Option.some_bind]
  rw [show Bencode.insertAssoc k v2 [(k, v1)] = [(k, v2)] from by
    simp [Bencode.insertAssoc]]
  rcases f2 with _ | f3
  · omega
  rw [Bencode.decodeDictLoop, if_pos (show ((101 : Nat) :: []).head? = some 101 from rfl)]
  rfl

/-- Witness for `c8_duplicate_key_amended` at key `a` and values `1`, `2`
(the bytes of `d1:ai1e1:ai2ee`). -/
theorem c8_duplicate_key_amended_witness :
    validUTF8 [97] = true ∧ Bencode.canonical (.num 1) = true ∧
    Bencode.decode (100 :: (Bencode.encStr [97] ++ (Bencode.encodeT (.num 1) ++
        (Bencode.encStr [97] ++ (Bencode.encodeT (.num 2) ++ [101]))))) =
      some (.dict [([97], .num 2)], []) :=
  ⟨rfl, rfl, c8_duplicate_key_amended [97] (.num 1) (.num 2) rfl (by decide) rfl rfl⟩

/-- Claim C9, as stated, is false: decoding `i-0e` does not fail — the
collected characters `-0` are handed to Rust's `parse::<i64>`, which
accepts a negative zero and yields `0` (`bencode.rs:186-198`). -/
theorem c9_integer_counterexample :
    Bencode.decode [105, 45, 48, 101] = some (.num 0, []) := by rfl

/-- Claim C9 (amended): `i0e` decodes to `0` as claimed, but the decoder
also accepts the forms the spec grammar rejects: `i-0e` decodes to `0`
and `i03e` (leading zero) decodes to `3`, because `parse::<i64>` accepts
both. -/
theorem c9_integer_amended :
    Bencode.decode [105, 48, 101] = some (.num 0, []) ∧
    Bencode.decode [105, 45, 48, 101] = some (.num 0, []) ∧
    Bencode.decode [105, 48, 51, 101] = some (.num 3, []) := ⟨rfl, rfl, rfl⟩

namespace Bencode

theorem Value.asDict_eq_some (v : Value) (m : List (List Nat × Value))
    (h : v.asDict = some m) : v = .dict m := by
  cases v <;> simp [Value.asDict] at h
  simp [h]

theorem Value.asStr_eq_some (v : Value) (s : List Nat) (h : v.asStr = some s) : v = .str s := by
  cases v <;> simp [Value.asStr] at h
  simp [h]

theorem Value.asBlob_eq_some (v : Value) (b : List Nat) (h : v.asBlob = some b) :
    v = .blob b := by
  cases v <;> simp [Value.asBlob] at h
  simp [h]

end Bencode

/-- From a successful `Info` projection, the `pieces` entry of the map was
present and was a `Blob`. -/
theorem Info.fromMap_pieces (m : List (List Nat × Bencode.Value)) (i : Info)
    (h : Info.fromMap m = some i) :
    ∃ b, Bencode.lookupAssoc kPieces m = some (.blob b) ∧ i.pieces = chunksExact 20 b := by
  rw [Info.fromMap] at h
  cases h1 : Bencode.lookupAssoc kLength m with
  | none => rw [h1] at h; exact absurd h (by simp)
  | some lv =>
    rw [h1] at h
    simp only [Option.some_bind] at h
    cases h2 : lv.asNum with
    | none => rw [h2] at h; exact absurd h (by simp)
    | some len =>
      rw [h2] at h
      simp only [Option.some_bind] at h
      cases h3 : Bencode.lookupAssoc kName m with
      | none => rw [h3] at h; exact absurd h (by simp)
      | some nv =>
        rw [h3] at h
        simp only [Option.some_bind] at h
        cases h4 : nv.asStr with
        | none => rw [h4] at h; exact absurd h (by simp)
        | some name =>
          rw [h4] at h
          simp only [Option.some_bind] at h
          cases h5 : Bencode.lookupAssoc kPieceLength m with
          | none => rw [h5] at h; exact absurd h (by simp)
          | some plv =>
            rw [h5] at h
            simp only [Option.some_bind] at h
            cases h6 : plv.asNum with
            | none => rw [h6] at h; exact absurd h (by simp)
            | some pl =>
              rw [h6] at h
              simp only [Option.some_bind] at h
              cases h7 : Bencode.lookupAssoc kPieces m with
              | none => rw [h7] at h; exact absurd h (by simp)
              | some pv =>
                rw [h7] at h
                simp only [Option.some_bind] at h
                cases h8 : pv.asBlob with
                | none => rw [h8] at h; exact absurd h (by simp)
                | some b =>
                  rw [h8] at h
                  simp only [Option.map_some'] at h
                  refine ⟨b, ?_, ?_⟩
                  · rw [Bencode.Value.asBlob_eq_some pv b h8]
                  · injection h with h'
                    rw [← h']

/-- Claim C6, as stated, is false: `Torrent::get_peers` returns
`Vec<Ipv4Addr>` — the port is printed (`torrent.rs:90`) but is not part
of the returned endpoints. Two tracker responses whose compact `peers`
blobs differ only in the port byte (ports 8080 and 8081) produce the same
return value, even though the endpoint lists the claim describes differ. -/
theorem c6_peers_counterexample :
    Torrent.getPeers [100, 53, 58, 112, 101, 101, 114, 115, 54, 58, 1, 2, 3, 4, 31, 144, 101] =
      some [(1, 2, 3, 4)] ∧
    Torrent.getPeers [100, 53, 58, 112, 101, 101, 114, 115, 54, 58, 1, 2, 3, 4, 31, 145, 101] =
      some [(1, 2, 3, 4)] ∧
    peerEndpoints [1, 2, 3, 4, 31, 144] ≠ peerEndpoints [1, 2, 3, 4, 31, 145] := by
  exact ⟨by decide, by decide, by decide⟩

/-- Claim C6 (amended): for a tracker response whose `peers` value is a
blob of `n` 6-byte groups, the extraction returns exactly `n` entries,
the `k`-th being only the IPv4 address built from bytes `6k..6k+4`; the
big-endian port from bytes `6k+4..6k+6` is printed together with the
address (`peerEndpoints` is the printed list) but is not part of the
returned list, which equals the printed endpoints stripped of their
ports. -/
theorem c6_peers_amended (resp : List Nat) (m : List (List Nat × Bencode.Value))
    (rest b : List Nat) (chunks : List (List Nat))
    (hdec : Bencode.decode resp = some (.dict m, rest))
    (hlook : Bencode.lookupAssoc kPeers m = some (.blob b))
    (hb : b = chunks.flatten) (hc : ∀ c ∈ chunks, c.length = 6) :
    Torrent.getPeers resp = some (getPeersIps b) ∧
    getPeersIps b = chunks.map (fun c => (c.getD 0 0, c.getD 1 0, c.getD 2 0, c.getD 3 0)) ∧
    (getPeersIps b).length = chunks.length ∧
    peerEndpoints b = chunks.map (fun c =>
      ((c.getD 0 0, c.getD 1 0, c.getD 2 0, c.getD 3 0), c.getD 4 0 * 256 + c.getD 5 0)) ∧
    getPeersIps b = (peerEndpoints b).map Prod.fst := by
  have hch : chunksExact 6 b = chunks := by
    rw [hb]
    exact chunksExact_flatten_chunks 6 (by omega) chunks hc
  refine ⟨?_, ?_, ?_, ?_, ?_⟩
  · rw [Torrent.getPeers, hdec]
    simp only [Option.some_bind, Bencode.Value.asDict]
    rw [hlook]
    simp only [Option.some_bind, Bencode.Value.asBlob, Option.map_some']
  · rw [getPeersIps, hch]
  · rw [getPeersIps, hch, List.length_map]
  · rw [peerEndpoints, hch]
  · rw [getPeersIps, peerEndpoints, List.map_map]
    rfl

/-- Witness for `c6_peers_amended` at the first counterexample response:
one 6-byte group, address `1.2.3.4`, printed port 8080. -/
theorem c6_peers_amended_witness :
    Bencode.decode [100, 53, 58, 112, 101, 101, 114, 115, 54, 58, 1, 2, 3, 4, 31, 144, 101] =
      some (.dict [([112, 101, 101, 114, 115], .blob [1, 2, 3, 4, 31, 144])], []) ∧
    Torrent.getPeers [100, 53, 58, 112, 101, 101, 114, 115, 54, 58, 1, 2, 3, 4, 31, 144, 101] =
      some (getPeersIps [1, 2, 3, 4, 31, 144]) ∧
    getPeersIps [1, 2, 3, 4, 31, 144] =
      ([[1, 2, 3, 4, 31, 144]] : List (List Nat)).map
        (fun c => (c.getD 0 0, c.getD 1 0, c.getD 2 0, c.getD 3 0)) :=
  ⟨by rfl,
    (c6_peers_amended [100, 53, 58, 112, 101, 101, 114, 115, 54, 58, 1, 2, 3, 4, 31, 144, 101]
      [([112, 101, 101, 114, 115], .blob [1, 2, 3, 4, 31, 144])] [] [1, 2, 3, 4, 31, 144]
      [[1, 2, 3, 4, 31, 144]] (by rfl) (by rfl) rfl (by decide)).1,
    (c6_peers_amended [100, 53, 58, 112, 101, 101, 114, 115, 54, 58, 1, 2, 3, 4, 31, 144, 101]
      [([112, 101, 101, 114, 115], .blob [1, 2, 3, 4, 31, 144])] [] [1, 2, 3, 4, 31, 144]
      [[1, 2, 3, 4, 31, 144]] (by rfl) (by rfl) rfl (by decide)).2.1⟩

/-- Claim C10 (confirmed): `decode_string` surfaces UTF-8-valid bytes as
`Value::String` and only non-UTF-8 bytes as `Value::Blob`
(`bencode.rs:135-139`), and the `Info` projection accepts `pieces` only
in the `Blob` form (`torrent.rs:145-148`); hence `Torrent` construction
succeeds only when the `pieces` bytes of the file are not valid UTF-8 —
for a file whose `pieces` value is valid UTF-8 the projection panics. -/
theorem c10_pieces_non_utf8 (B : List Nat) (t : Torrent)
    (h : Torrent.openFile B = some t) :
    ∃ m rest im b, Bencode.decode B = some (.dict m, rest) ∧
      Bencode.lookupAssoc kInfo m = some (.dict im) ∧
      Bencode.lookupAssoc kPieces im = some (.blob b) ∧
      validUTF8 b = false := by
  rw [Torrent.openFile] at h
  cases hdec : Bencode.decode B with
  | none => rw [hdec] at h; exact absurd h (by simp)
  | some p =>
    obtain ⟨v, rest⟩ := p
    rw [hdec] at h
    simp only [Option.some_bind] at h
    cases hvd : v.asDict with
    | none => rw [hvd] at h; exact absurd h (by simp)
    | some m =>
      rw [hvd] at h
      simp only [Option.some_bind] at h
      have hveq : v = .dict m := Bencode.Value.asDict_eq_some v m hvd
      cases hla : Bencode.lookupAssoc kAnnounce m with
      | none => rw [hla] at h; exact absurd h (by simp)
      | some av =>
        rw [hla] at h
        simp only [Option.some_bind] at h
        cases has : av.asStr with
        | none => rw [has] at h; exact absurd h (by simp)
        | some a =>
          rw [has] at h
          simp only [Option.some_bind] at h
          cases hli : Bencode.lookupAssoc kInfo m with
          | none => rw [hli] at h; exact absurd h (by simp)
          | some iv =>
            rw [hli] at h
            simp only [Option.some_bind] at h
            cases hid : iv.asDict with
            | none => rw [hid] at h; exact absurd h (by simp)
            | some im =>
              rw [hid] at h
              simp only [Option.some_bind] at h
              have hiveq : iv = .dict im := Bencode.Value.asDict_eq_some iv im hid
              cases hfm : Info.fromMap im with
              | none => rw [hfm] at h; exact absurd h (by simp)
              | some i =>
                obtain ⟨b, hpb, _⟩ := Info.fromMap_pieces im i hfm
                have hOk : Bencode.blobsOkD m = true := by
                  have h0 := Bencode.decode_blobsOk B v rest hdec
                  rw [hveq, Bencode.blobsOk] at h0
                  exact h0
                have hOkiv : Bencode.blobsOk iv = true :=
                  Bencode.blobsOkD_lookup kInfo m iv hOk hli
                have hOkim : Bencode.blobsOkD im = true := by
                  rw [hiveq, Bencode.blobsOk] at hOkiv
                  exact hOkiv
                have hOkb : Bencode.blobsOk (.blob b) = true :=
                  Bencode.blobsOkD_lookup kPieces im (.blob b) hOkim hpb
                rw [Bencode.blobsOk, Bool.not_eq_true'] at hOkb
                exact ⟨m, rest, im, b, by rw [hveq], by rw [hli, hiveq], hpb, hOkb⟩

/-- Witness for `c10_pieces_non_utf8` at a concrete minimal torrent file
whose `pieces` blob starts with the non-UTF-8 byte 0xff. -/
theorem c10_pieces_non_utf8_witness :
    Torrent.openFile
        (100 :: (Bencode.encStr kAnnounce ++ Bencode.encode (.str [97])
          ++ Bencode.encStr kInfo)
          ++ Bencode.encode (.dict [(kLength, .num 1), (kName, .str [97]),
              (kPieceLength, .num 1), (kPieces, .blob (255 :: List.replicate 19 0))])
          ++ [101]) =
      some (Torrent.mk [97] (Info.mk 1 [97] 1 [255 :: List.replicate 19 0])) ∧
    (∃ m rest im b,
      Bencode.decode
          (100 :: (Bencode.encStr kAnnounce ++ Bencode.encode (.str [97])
            ++ Bencode.encStr kInfo)
            ++ Bencode.encode (.dict [(kLength, .num 1), (kName, .str [97]),
                (kPieceLength, .num 1), (kPieces, .blob (255 :: List.replicate 19 0))])
            ++ [101]) = some (.dict m, rest) ∧
      Bencode.lookupAssoc kInfo m = some (.dict im) ∧
      Bencode.lookupAssoc kPieces im = some (.blob b) ∧
      validUTF8 b = false) :=
  ⟨by decide,
    c10_pieces_non_utf8
      (100 :: (Bencode.encStr kAnnounce ++ Bencode.encode (.str [97])
        ++ Bencode.encStr kInfo)
        ++ Bencode.encode (.dict [(kLength, .num 1), (kName, .str [97]),
            (kPieceLength, .num 1), (kPieces, .blob (255 :: List.replicate 19 0))])
        ++ [101])
      (Torrent.mk [97] (Info.mk 1 [97] 1 [255 :: List.replicate 19 0])) (by decide)⟩

/-- Claim C2, as stated, is false: `Torrent::info_hash` (`torrent.rs:41-48`)
hashes the re-encoding of the four projected `Info` fields, not the info
slice of the file; an info dictionary carrying any additional key (here
`"private"`) opens successfully, yet the computed hash differs from the
SHA-1 of the bencoded info dictionary exactly as it appears in the file. -/
theorem c2_infohash_counterexample :
    Torrent.openFile
        (100 :: (Bencode.encStr kAnnounce ++ Bencode.encStr [97] ++ Bencode.encStr kInfo)
          ++ Bencode.encodeT (.dict [(kLength, .num 1), (kName, .str [97]),
              (kPieceLength, .num 1), (kPieces, .blob (255 :: List.replicate 19 0)),
              ([112, 114, 105, 118, 97, 116, 101], .num 0)])
          ++ [101]) =
      some (Torrent.mk [97] (Info.mk 1 [97] 1 [255 :: List.replicate 19 0])) ∧
    Torrent.infoHashBytes (Torrent.mk [97] (Info.mk 1 [97] 1 [255 :: List.replicate 19 0])) ≠
      sha1 (Bencode.encodeT (.dict [(kLength, .num 1), (kName, .str [97]),
          (kPieceLength, .num 1), (kPieces, .blob (255 :: List.replicate 19 0)),
          ([112, 114, 105, 118, 97, 116, 101], .num 0)])) := by
  exact ⟨by decide, by decide⟩

set_option maxHeartbeats 1600000 in
/-- Claim C2 (amended): for a torrent file that is exactly the canonical
encoding of an `announce` string and a four-key info dictionary — the keys
the code projects, in sorted order, with UTF-8 `announce`/`name` bytes,
non-UTF-8 `pieces` bytes whose length is a multiple of 20, and
`length`/`piece length` in `[0, 2^63)` — opening succeeds and
`Torrent::info_hash` is the SHA-1 of the bencoded info dictionary exactly
as it appears in the file, rendered in lowercase hex. -/
theorem c2_infohash_amended (a name pieces : List Nat) (n p : Int)
    (ha : validUTF8 a = true) (haL : a.length < 2 ^ 63)
    (hnm : validUTF8 name = true) (hnmL : name.length < 2 ^ 63)
    (hq : validUTF8 pieces = false) (hqL : pieces.length < 2 ^ 63)
    (hn0 : 0 ≤ n) (hn1 : n < 2 ^ 63) (hp0 : 0 ≤ p) (hp1 : p < 2 ^ 63)
    (hdiv : pieces.length % 20 = 0) :
    Torrent.openFile
        (100 :: (Bencode.encStr kAnnounce ++ Bencode.encStr a ++ Bencode.encStr kInfo)
          ++ Bencode.encodeT (.dict [(kLength, .num n), (kName, .str name),
              (kPieceLength, .num p), (kPieces, .blob pieces)]) ++ [101]) =
      some (Torrent.mk a (Info.mk (i64ToUsize n) name (i64ToUsize p)
        (chunksExact 20 pieces))) ∧
    Torrent.infoHashBytes (Torrent.mk a (Info.mk (i64ToUsize n) name (i64ToUsize p)
        (chunksExact 20 pieces))) =
      sha1 (Bencode.encodeT (.dict [(kLength, .num n), (kName, .str name),
          (kPieceLength, .num p), (kPieces, .blob pieces)])) ∧
    Torrent.infoHash (Torrent.mk a (Info.mk (i64ToUsize n) name (i64ToUsize p)
        (chunksExact 20 pieces))) =
      toHex (sha1 (Bencode.encodeT (.dict [(kLength, .num n), (kName, .str name),
          (kPieceLength, .num p), (kPieces, .blob pieces)]))) := by
  have hnum : Bencode.canonical (.num n) = true := by
    simp only [Bencode.canonical, Bool.and_eq_true, decide_eq_true_eq]
    exact ⟨by omega, hn1⟩
  have hpnum : Bencode.canonical (.num p) = true := by
    simp only [Bencode.canonical, Bool.and_eq_true, decide_eq_true_eq]
    exact ⟨by omega, hp1⟩
  have hstr : Bencode.canonical (.str name) = true := by
    simp only [Bencode.canonical, Bool.and_eq_true, decide_eq_true_eq]
    exact ⟨hnm, hnmL⟩
  have hblob : Bencode.canonical (.blob pieces) = true := by
    simp only [Bencode.canonical, Bool.and_eq_true, Bool.not_eq_true', decide_eq_true_eq]
    exact ⟨hq, hqL⟩
  have hastr : Bencode.canonical (.str a) = true := by
    simp only [Bencode.canonical, Bool.and_eq_true, decide_eq_true_eq]
    exact ⟨ha, haL⟩
  have hm4d : Bencode.canonicalD [(kLength, .num n), (kName, .str name),
      (kPieceLength, .num p), (kPieces, .blob pieces)] = true := by
    simp only [Bencode.canonicalD, hnum, hstr, hpnum, hblob, Bool.and_true, Bool.true_and]
    decide
  have hm4 : Bencode.canonical (.dict [(kLength, .num n), (kName, .str name),
      (kPieceLength, .num p), (kPieces, .blob pieces)]) = true := by
    rw [Bencode.canonical, hm4d]
    simp only [List.map_cons, List.map_nil, Bool.true_and]
    decide
  have hV : Bencode.canonical (.dict [(kAnnounce, .str a),
      (kInfo, .dict [(kLength, .num n), (kName, .str name),
        (kPieceLength, .num p), (kPieces, .blob pieces)])]) = true := by
    rw [Bencode.canonical, Bencode.canonicalD, Bencode.canonicalD, Bencode.canonicalD,
      hastr, hm4]
    simp only [List.map_cons, List.map_nil, Bool.and_true, Bool.true_and]
    decide
  have hdec : Bencode.decode (Bencode.encodeT (.dict [(kAnnounce, .str a),
      (kInfo, .dict [(kLength, .num n), (kName, .str name),
        (kPieceLength, .num p), (kPieces, .blob pieces)])])) =
      some (.dict [(kAnnounce, .str a),
        (kInfo, .dict [(kLength, .num n), (kName, .str name),
          (kPieceLength, .num p), (kPieces, .blob pieces)])], []) :=
    Bencode.decode_encodeT _ hV
  have hB : (100 :: (Bencode.encStr kAnnounce ++ Bencode.encStr a ++ Bencode.encStr kInfo)
      ++ Bencode.encodeT (.dict [(kLength, .num n), (kName, .str name),
          (kPieceLength, .num p), (kPieces, .blob pieces)]) ++ [101]) =
      Bencode.encodeT (.dict [(kAnnounce, .str a),
        (kInfo, .dict [(kLength, .num n), (kName, .str name),
          (kPieceLength, .num p), (kPieces, .blob pieces)])]) := by
    simp [Bencode.encodeT, Bencode.encodeTD]
  have hih : Torrent.infoHashBytes (Torrent.mk a (Info.mk (i64ToUsize n) name (i64ToUsize p)
      (chunksExact 20 pieces))) =
      sha1 (Bencode.encodeT (.dict [(kLength, .num n), (kName, .str name),
        (kPieceLength, .num p), (kPieces, .blob pieces)])) := by
    rw [Torrent.infoHashBytes]
    show sha1 (Bencode.encode (.dict [(kLength, .num (usizeToI64 (i64ToUsize n))),
      (kName, .str name), (kPieceLength, .num (usizeToI64 (i64ToUsize p))),
      (kPieces, .blob (chunksExact 20 pieces).flatten)])) = _
    rw [usizeToI64_i64ToUsize n (by omega) hn1, usizeToI64_i64ToUsize p (by omega) hp1,
      flatten_chunksExact 20 (by norm_num) pieces.length pieces rfl hdiv,
      Bencode.encode_eq_encodeT _ hm4]
  have l1 : Bencode.lookupAssoc kAnnounce [(kAnnounce, Bencode.Value.str a),
      (kInfo, .dict [(kLength, .num n), (kName, .str name),
        (kPieceLength, .num p), (kPieces, .blob pieces)])] = some (.str a) := by
    rw [Bencode.lookupAssoc, if_pos rfl]
  have l2 : Bencode.lookupAssoc kInfo [(kAnnounce, Bencode.Value.str a),
      (kInfo, .dict [(kLength, .num n), (kName, .str name),
        (kPieceLength, .num p), (kPieces, .blob pieces)])] =
      some (.dict [(kLength, .num n), (kName, .str name),
        (kPieceLength, .num p), (kPieces, .blob pieces)]) := by
    rw [Bencode.lookupAssoc, if_neg (by decide), Bencode.lookupAssoc, if_pos rfl]
  have f1 : Bencode.lookupAssoc kLength [(kLength, Bencode.Value.num n), (kName, .str name),
      (kPieceLength, .num p), (kPieces, .blob pieces)] = some (.num n) := by
    rw [Bencode.lookupAssoc, if_pos rfl]
  have f2 : Bencode.lookupAssoc kName [(kLength, Bencode.Value.num n), (kName, .str name),
      (kPieceLength, .num p), (kPieces, .blob pieces)] = some (.str name) := by
    rw [Bencode.lookupAssoc, if_neg (by decide), Bencode.lookupAssoc, if_pos rfl]
  have f3 : Bencode.lookupAssoc kPieceLength [(kLength, Bencode.Value.num n),
      (kName, .str name), (kPieceLength, .num p), (kPieces, .blob pieces)] =
      some (.num p) := by
    rw [Bencode.lookupAssoc, if_neg (by decide), Bencode.lookupAssoc, if_neg (by decide),
      Bencode.lookupAssoc, if_pos rfl]
  have f4 : Bencode.lookupAssoc kPieces [(kLength, Bencode.Value.num n), (kName, .str name),
      (kPieceLength, .num p), (kPieces, .blob pieces)] = some (.blob pieces) := by
    rw [Bencode.lookupAssoc, if_neg (by decide), Bencode.lookupAssoc, if_neg (by decide),
      Bencode.lookupAssoc, if_neg (by decide), Bencode.lookupAssoc, if_pos rfl]
  refine ⟨?_, hih, ?_⟩
  · rw [hB, Torrent.openFile, hdec]
    simp only [Option.some_bind, Bencode.Value.asDict]
    rw [l1]
    simp only [Option.some_bind, Bencode.Value.asStr]
    rw [l2]
    simp only [Option.some_bind, Bencode.Value.asDict]
    rw [Info.fromMap, f1]
    simp only [Option.some_bind, Bencode.Value.asNum]
    rw [f2]
    simp only [Option.some_bind, Bencode.Value.asStr]
    rw [f3]
    simp only [Option.some_bind, Bencode.Value.asNum]
    rw [f4]
    simp only [Option.some_bind, Bencode.Value.asBlob, Option.map_some']
  · rw [Torrent.infoHash, hih]

/-- Witness for `c2_infohash_amended` at a one-byte announce/name, 20-byte
pieces blob starting with 0xff, and length = piece length = 1. -/
theorem c2_infohash_amended_witness :
    Torrent.openFile
        (100 :: (Bencode.encStr kAnnounce ++ Bencode.encStr [97] ++ Bencode.encStr kInfo)
          ++ Bencode.encodeT (.dict [(kLength, .num 1), (kName, .str [97]),
              (kPieceLength, .num 1), (kPieces, .blob (255 :: List.replicate 19 0))])
          ++ [101]) =
      some (Torrent.mk [97] (Info.mk (i64ToUsize 1) [97] (i64ToUsize 1)
        (chunksExact 20 (255 :: List.replicate 19 0)))) ∧
    Torrent.infoHashBytes (Torrent.mk [97] (Info.mk (i64ToUsize 1) [97] (i64ToUsize 1)
        (chunksExact 20 (255 :: List.replicate 19 0)))) =
      sha1 (Bencode.encodeT (.dict [(kLength, .num 1), (kName, .str [97]),
          (kPieceLength, .num 1), (kPieces, .blob (255 :: List.replicate 19 0))])) ∧
    Torrent.infoHash (Torrent.mk [97] (Info.mk (i64ToUsize 1) [97] (i64ToUsize 1)
        (chunksExact 20 (255 :: List.replicate 19 0)))) =
      toHex (sha1 (Bencode.encodeT (.dict [(kLength, .num 1), (kName, .str [97]),
          (kPieceLength, .num 1), (kPieces, .blob (255 :: List.replicate 19 0))]))) :=
  c2_infohash_amended [97] [97] (255 :: List.replicate 19 0) 1 1 (by decide) (by decide)
    (by decide) (by decide) (by decide) (by decide) (by decide) (by decide) (by decide)
    (by decide) (by decide)
